import Mathlib

/-!
# Monte-Carlo simulation suite: π estimator and GBM stock-price simulator

Shallow embedding of `monte_carlo_pi.cpp` and `stock_simulation.cpp`.

* A C++ `double` is a value of an arbitrary type `α` carrying the arithmetic the
  code uses (`+ - * /`, comparisons, decimal literals, conversion from an
  integer); `std::exp` and `std::sqrt` are passed in as functions.  Structural
  results hold for every such `α`; numerical results are proved for `α = ℝ`
  with `Real.exp` and `Real.sqrt`, i.e. for exact arithmetic without rounding,
  overflow or underflow.
* The random generator together with its distribution object is a stream
  `draws : ℕ → α`; the generator state is the number of draws taken so far.
* A `std::vector` is a `List`; an access outside a vector and a vector
  constructor called with a negative count are results of type `Fault`.
* `int` parameters are integers; `int` arithmetic that can leave the 32-bit
  range (`numSteps + 1`, the index of the field loop of `saveToCSV`) wraps in
  two's complement (`wrap32`).  The counter `pointInCircle` of `estimatePi` is
  a two's-complement 64-bit value (`wrap64`), and `piMachineLoop` runs the
  sampling loop with a wrapping index as well.  Memory exhaustion is not
  modelled.
* The file written by `saveToCSV` is a list of characters; the text that
  `operator<<` produces for a `double` is a function `render`.
* `OrNaN α` adds a NaN to an arithmetic `α`, with the square root of a negative
  number being NaN; it shows which argument reaches `std::sqrt`.
* `Binary64 α` is the arithmetic of IEEE 754 binary64 on the finite values:
  every operation, literal and library function is the exact one followed by
  rounding to the nearest value of 53 significant bits, ties to even
  (`roundBinary64`), with underflow to the multiples of `2^-1074`; overflow to
  infinity is not modelled.  It shows where rounding and underflow make the
  code depart from exact arithmetic.
-/

namespace MonteCarlo

/-! ## Common machinery -/

/-- Ways in which the C++ code can leave its defined behaviour. -/
inductive Fault where
  /-- `std::length_error`: a `std::vector` constructor received a negative
  count, which converts to a `size_t` above `max_size()`. -/
  | lengthError
  /-- An element access outside a vector (`v[i]` or `back()` on an empty
  vector): undefined behaviour in C++. -/
  | outOfBounds
  deriving DecidableEq, Repr

/-- The loop `for (int i = 0; i < n; i++) body`, whose body assigns neither `i`
nor `n`: it runs the body for `i = 0, 1, .., n - 1` in this order, threading the
state, and stops at the first fault.  Callers pass `n.toNat`, so a bound
`n ≤ 0` gives no iteration. -/
def forLoop {σ : Type} (n : Nat) (body : Nat → σ → Except Fault σ) (s : σ) :
    Except Fault σ :=
  (List.range n).foldlM (fun s i => body i s) s

/-- Two's-complement value of an integer in a signed 64-bit `long long`. -/
def wrap64 (x : Int) : Int := (x + 2 ^ 63) % 2 ^ 64 - 2 ^ 63

/-- Two's-complement value of an integer in a signed 32-bit `int`: what `int`
arithmetic yields when the exact result leaves the range. -/
def wrap32 (x : Int) : Int := (x + 2 ^ 31) % 2 ^ 32 - 2 ^ 31

/-! ## `monte_carlo_pi.cpp` -/

/-- Loop state of `estimatePi`: the counter and the generator position. -/
structure PiState where
  pointInCircle : Int
  gen : Nat
  deriving DecidableEq, Repr

/-- Body of the sampling loop of `estimatePi`: two draws `x`, `y`, then the
counter is incremented when `x*x + y*y <= 1.0`. -/
def estimatePiBody {α : Type} [Add α] [Mul α] [OfScientific α] [LE α]
    [DecidableRel (fun a b : α => a ≤ b)] (draws : Nat → α) (s : PiState) : PiState :=
  let x := draws s.gen
  let y := draws (s.gen + 1)
  if x * x + y * y ≤ (1.0 : α) then
    { pointInCircle := wrap64 (s.pointInCircle + 1), gen := s.gen + 2 }
  else
    { pointInCircle := s.pointInCircle, gen := s.gen + 2 }

/-- Embedding of `double estimatePi(long long numPoints)`.  The function has
no `throw` and no error return: every path ends in the final division. -/
def estimatePi {α : Type} [Add α] [Mul α] [Div α] [OfScientific α] [IntCast α] [LE α]
    [DecidableRel (fun a b : α => a ≤ b)] (draws : Nat → α) (numPoints : Int) :
    Except Fault α := do
  let s ← forLoop numPoints.toNat (fun _ s => pure (estimatePiBody draws s))
    { pointInCircle := 0, gen := 0 }
  pure (((s.pointInCircle : Int) : α) * (4.0 : α) / ((numPoints : Int) : α))

/-! ## `stock_simulation.cpp` -/

/-- The record `SimulationParams`. -/
structure SimulationParams (α : Type) where
  S0 : α
  mu : α
  sigma : α
  T : α
  numSteps : Int
  numPaths : Int

/-- Construction `std::vector<T>(count, value)` with an `int` count. -/
def vectorOfSize {β : Type} (count : Int) (value : β) : Except Fault (List β) :=
  if count < 0 then .error .lengthError else .ok (List.replicate count.toNat value)

/-- Reading `stockPaths[i][j]`. -/
def readCell {α : Type} (M : List (List α)) (i j : Nat) : Except Fault α :=
  match M[i]? with
  | none => .error .outOfBounds
  | some row =>
    match row[j]? with
    | none => .error .outOfBounds
    | some v => .ok v

/-- Assignment `stockPaths[i][j] = v`. -/
def writeCell {α : Type} (M : List (List α)) (i j : Nat) (v : α) :
    Except Fault (List (List α)) :=
  match M[i]? with
  | none => .error .outOfBounds
  | some row => if j < row.length then .ok (M.set i (row.set j v)) else .error .outOfBounds

/-- Body of the inner loop of `simulateStockPrices`: one draw `Z`, then
`stockPaths[i][j+1] = stockPaths[i][j] * exp((mu - 0.5*sigma*sigma)*dt + sigma*sqrtDt*Z)`. -/
def simulateStep {α : Type} [Add α] [Sub α] [Mul α] [OfScientific α]
    (exp : α → α) (draws : Nat → α) (params : SimulationParams α) (dt sqrtDt : α)
    (i j : Nat) (st : List (List α) × Nat) : Except Fault (List (List α) × Nat) := do
  let Z := draws st.2
  let prev ← readCell st.1 i j
  let M ← writeCell st.1 i (j + 1)
    (prev * exp ((params.mu - (0.5 : α) * params.sigma * params.sigma) * dt
      + params.sigma * sqrtDt * Z))
  pure (M, st.2 + 1)

/-- Embedding of `simulateStockPrices`.  The column count `params.numSteps + 1`
is `int` arithmetic: at `numSteps = INT_MAX` it wraps to `INT_MIN`, a negative
count for the vector constructor. -/
def simulateStockPrices {α : Type} [Add α] [Sub α] [Mul α] [Div α] [OfScientific α]
    [IntCast α] (exp sqrt : α → α) (draws : Nat → α) (params : SimulationParams α) :
    Except Fault (List (List α)) := do
  let dt := params.T / ((params.numSteps : Int) : α)
  let sqrtDt := sqrt dt
  let row ← vectorOfSize (wrap32 (params.numSteps + 1)) (0.0 : α)
  let stockPaths ← vectorOfSize params.numPaths row
  let stockPaths ← forLoop params.numPaths.toNat
    (fun i M => writeCell M i 0 params.S0) stockPaths
  let st ← forLoop params.numPaths.toNat
    (fun i st => forLoop params.numSteps.toNat
      (fun j st => simulateStep exp draws params dt sqrtDt i j st) st)
    (stockPaths, 0)
  pure st.1

/-- The call `path.back()`. -/
def back {α : Type} (path : List α) : Except Fault α :=
  match path.getLast? with
  | none => .error .outOfBounds
  | some v => .ok v

/-- The first loop of `calculateStatistics`: `finalPrices.push_back(path.back())`
for every row. -/
def collectFinalPrices {α : Type} : List (List α) → Except Fault (List α)
  | [] => .ok []
  | path :: rest => do
    let p ← back path
    let ps ← collectFinalPrices rest
    pure (p :: ps)

/-- Accumulators of the second loop of `calculateStatistics`. -/
structure StatsAcc (α : Type) where
  sum : α
  sumSq : α
  min : α
  max : α

/-- Body of the second loop of `calculateStatistics`. -/
def accumulate {α : Type} [Add α] [Mul α] [LT α] [DecidableRel (fun a b : α => a < b)]
    (acc : StatsAcc α) (price : α) : StatsAcc α :=
  { sum := acc.sum + price
    sumSq := acc.sumSq + price * price
    min := if price < acc.min then price else acc.min
    max := if price > acc.max then price else acc.max }

/-- The values `calculateStatistics` computes and prints. -/
structure Statistics (α : Type) where
  mean : α
  variance : α
  stdDev : α
  min : α
  max : α
  theoreticalMean : α

/-- Embedding of `calculateStatistics`; the printed values are returned. -/
def calculateStatistics {α : Type} [Add α] [Sub α] [Mul α] [Div α] [OfScientific α]
    [IntCast α] [LT α] [DecidableRel (fun a b : α => a < b)] (exp sqrt : α → α)
    (stockPaths : List (List α)) (params : SimulationParams α) :
    Except Fault (Statistics α) := do
  let finalPrices ← collectFinalPrices stockPaths
  let first ← match finalPrices[0]? with
    | none => Except.error Fault.outOfBounds
    | some v => Except.ok v
  let acc := finalPrices.foldl accumulate
    { sum := (0.0 : α), sumSq := (0.0 : α), min := first, max := first }
  let mean := acc.sum / ((params.numPaths : Int) : α)
  let variance := acc.sumSq / ((params.numPaths : Int) : α) - mean * mean
  let stdDev := sqrt variance
  let theoreticalMean := params.S0 * exp (params.mu * params.T)
  pure { mean := mean, variance := variance, stdDev := stdDev, min := acc.min,
         max := acc.max, theoreticalMean := theoreticalMean }


/-! ## Specification-side definitions -/

/-- The count the specification names: the number of indices `i < n` whose pair
`(x_i, y_i) = (draw 2i, draw 2i+1)` satisfies `x_i*x_i + y_i*y_i ≤ 1.0`. -/
def countInside {α : Type} [Add α] [Mul α] [OfScientific α] [LE α]
    [DecidableRel (fun a b : α => a ≤ b)] (draws : Nat → α) (n : Nat) : Nat :=
  ((List.range n).filter (fun i =>
    decide (draws (2 * i) * draws (2 * i) + draws (2 * i + 1) * draws (2 * i + 1)
      ≤ (1.0 : α)))).length

/-- Entry `M[i][j]` of a matrix, when both indices are in range. -/
def entry {α : Type} (M : List (List α)) (i j : Nat) : Option α :=
  (M[i]?).bind (fun row => row[j]?)

/-- A matrix of `rows` rows with `cols` entries each. -/
def Shape {α : Type} (M : List (List α)) (rows cols : Nat) : Prop :=
  M.length = rows ∧ ∀ (r : Nat) (row : List α), M[r]? = some row → row.length = cols

/-- The factor of one step of the discretised geometric Brownian motion, as the
specification writes it: `exp((mu - 0.5*sigma^2)*dt + sigma*sqrt(dt)*Z)` with
`dt = T / numSteps`. -/
def growth {α : Type} [Add α] [Sub α] [Mul α] [Div α] [OfScientific α] [IntCast α]
    (exp sqrt : α → α) (params : SimulationParams α) (Z : α) : α :=
  exp ((params.mu - (0.5 : α) * params.sigma * params.sigma)
        * (params.T / ((params.numSteps : Int) : α))
      + params.sigma * sqrt (params.T / ((params.numSteps : Int) : α)) * Z)

/-- The parameters that `main` of `stock_simulation.cpp` sets. -/
def mainParams (α : Type) [OfScientific α] : SimulationParams α :=
  { S0 := 100.0, mu := 0.05, sigma := 0.20, T := 1.0, numSteps := 252, numPaths := 1000 }

/-- Registers of the sampling loop of `estimatePi` as the machine holds them:
the index `i` and the counter, both `long long`, and the generator position. -/
structure PiMachine where
  i : Int
  pointInCircle : Int
  gen : Nat
  deriving DecidableEq, Repr

/-- One iteration of the sampling loop on the registers: the body, then `i++`
in two's-complement 64-bit arithmetic. -/
def piMachineStep {α : Type} [Add α] [Mul α] [OfScientific α] [LE α]
    [DecidableRel (fun a b : α => a ≤ b)] (draws : Nat → α) (s : PiMachine) : PiMachine :=
  let t := estimatePiBody draws { pointInCircle := s.pointInCircle, gen := s.gen }
  { i := wrap64 (s.i + 1), pointInCircle := t.pointInCircle, gen := t.gen }

/-- The loop `for (long long i = 0; i < numPoints; i++)` on the registers, the
test `i < numPoints` evaluated before every iteration; `none` when the fuel is
used up before the test fails. -/
def piMachineLoop {α : Type} [Add α] [Mul α] [OfScientific α] [LE α]
    [DecidableRel (fun a b : α => a ≤ b)] (draws : Nat → α) (numPoints : Int) :
    Nat → PiMachine → Option PiMachine
  | 0, s => if s.i < numPoints then none else some s
  | fuel + 1, s =>
    if s.i < numPoints then piMachineLoop draws numPoints fuel (piMachineStep draws s)
    else some s

/-- A value that is a number of the arithmetic `α` or NaN (not a number).  It
serves to observe which argument the code hands to `std::sqrt`, whose result
for a negative argument is NaN. -/
inductive OrNaN (α : Type) where
  | nan : OrNaN α
  | num : α → OrNaN α

/-- A binary operation on numbers, with NaN for a NaN operand. -/
def OrNaN.map₂ {α : Type} (f : α → α → α) : OrNaN α → OrNaN α → OrNaN α
  | .num x, .num y => .num (f x y)
  | _, _ => .nan

/-- A unary function on numbers, with NaN for NaN. -/
def OrNaN.lift {α : Type} (f : α → α) : OrNaN α → OrNaN α
  | .num x => .num (f x)
  | .nan => .nan

/-- The square root with the domain of `std::sqrt`: NaN for a negative number
and for NaN. -/
def OrNaN.sqrt {α : Type} [Zero α] [LT α] [DecidableRel (fun a b : α => a < b)]
    (sqrt : α → α) : OrNaN α → OrNaN α
  | .num x => if x < 0 then .nan else .num (sqrt x)
  | .nan => .nan

/-- Comparison `a < b`: false as soon as an operand is NaN. -/
def OrNaN.lt {α : Type} [LT α] : OrNaN α → OrNaN α → Prop
  | .num x, .num y => x < y
  | _, _ => False

instance OrNaN.instAdd {α : Type} [Add α] : Add (OrNaN α) := ⟨OrNaN.map₂ (fun x y => x + y)⟩

instance OrNaN.instSub {α : Type} [Sub α] : Sub (OrNaN α) := ⟨OrNaN.map₂ (fun x y => x - y)⟩

instance OrNaN.instMul {α : Type} [Mul α] : Mul (OrNaN α) := ⟨OrNaN.map₂ (fun x y => x * y)⟩

instance OrNaN.instDiv {α : Type} [Div α] : Div (OrNaN α) := ⟨OrNaN.map₂ (fun x y => x / y)⟩

instance OrNaN.instOfScientific {α : Type} [OfScientific α] : OfScientific (OrNaN α) :=
  ⟨fun m s e => .num (OfScientific.ofScientific m s e)⟩

instance OrNaN.instIntCast {α : Type} [IntCast α] : IntCast (OrNaN α) :=
  ⟨fun n => .num (IntCast.intCast n)⟩

instance OrNaN.instLT {α : Type} [LT α] : LT (OrNaN α) := ⟨OrNaN.lt⟩

instance OrNaN.instDecidableLT {α : Type} [LT α] [DecidableRel (fun a b : α => a < b)] :
    DecidableRel (fun a b : OrNaN α => a < b)
  | .num x, .num y => inferInstanceAs (Decidable (x < y))
  | .nan, _ => isFalse (fun h => h)
  | .num _, .nan => isFalse (fun h => h)

/-- Body of the inner loop of `saveToCSV`: `outFile << "," << stockPaths[i][j]`,
where `render` is the text that `operator<<` produces for a `double`.  The
index `j` is an `int`; a negative one converts to an index outside every
vector. -/
def writeField {α : Type} (render : α → List Char) (stockPaths : List (List α))
    (i : Nat) (j : Int) (out : List Char) : Except Fault (List Char) :=
  if j < 0 then .error .outOfBounds
  else do
    let v ← readCell stockPaths i j.toNat
    pure (out ++ ',' :: render v)

/-- Body of the outer loop of `saveToCSV`: the index `i + 1`, a positive `int`
written in decimal digits, then the loop `for (int j = 0; j <= numSteps; j++)`
over the fields, then the newline of `std::endl`.  The field loop runs its body
for `j = 0, .., numSteps`; the last `j++` then gives `wrap32 (numSteps + 1)`,
which exceeds `numSteps` and ends the loop, except at `numSteps = INT_MAX`,
where it is `INT_MIN`: the test `j <= numSteps` holds again and the body runs
at this negative index. -/
def writeLine {α : Type} (render : α → List Char) (stockPaths : List (List α))
    (params : SimulationParams α) (i : Nat) (out : List Char) : Except Fault (List Char) := do
  let out := out ++ Nat.toDigits 10 (i + 1)
  let out ← forLoop (params.numSteps + 1).toNat
    (fun j out => writeField render stockPaths i (j : Int) out) out
  let next := wrap32 (params.numSteps + 1)
  let out ← if 0 ≤ params.numSteps ∧ next ≤ params.numSteps then
      writeField render stockPaths i next out
    else pure out
  pure (out ++ ['\n'])

/-- Embedding of `saveToCSV`.  `opens` tells whether the destination opens; the
result is the text written to the file, or `none` when the file did not open
and nothing was written. -/
def saveToCSV {α : Type} (render : α → List Char) (opens : Bool)
    (stockPaths : List (List α)) (params : SimulationParams α) :
    Except Fault (Option (List Char)) :=
  if !opens then pure none
  else do
    let out ← forLoop params.numPaths.toNat (writeLine render stockPaths params) []
    pure (some out)

/-- The lines of the persisted file as the specification describes them, for
the rows of a matrix numbered from `first`: the 1-based path index, then the
prices of the path, separated by commas. -/
def csvLines {α : Type} (render : α → List Char) : Nat → List (List α) → List (List Char)
  | _, [] => []
  | first, row :: rest =>
    [','].intercalate (Nat.toDigits 10 (first + 1) :: row.map render)
      :: csvLines render (first + 1) rest

/-- The persisted file as the specification describes it: one line per path,
each terminated by a newline. -/
def csvText {α : Type} (render : α → List Char) (M : List (List α)) : List Char :=
  (csvLines render 0 M).flatMap (fun line => line ++ ['\n'])

/-- A parser of the persisted file: split on newlines, drop the empty piece
after the last newline, split every line on commas and drop the index. -/
def parseCSV (text : List Char) : List (List (List Char)) :=
  ((text.splitOn '\n').dropLast).map (fun line => (line.splitOn ',').tail)

/-- A reader of decimal digits, the inverse of the decimal rendering of a
natural number. -/
def readDecimal (s : List Char) : Nat :=
  s.foldl (fun n c => 10 * n + (c.toNat - 48)) 0

/-! ## Binary64 arithmetic -/

/-- Rounding to the nearest integer, a tie going to the even neighbour. -/
def roundEven {α : Type} [LinearOrderedField α] [FloorRing α] (x : α) : Int :=
  if x - ((Int.floor x : Int) : α) < 1 / 2 then Int.floor x
  else if 1 / 2 < x - ((Int.floor x : Int) : α) then Int.floor x + 1
  else if Int.floor x % 2 = 0 then Int.floor x
  else Int.floor x + 1

/-- Exponent of the unit in the last place of binary64 at `x`: 52 binary places
below the leading bit of `x`, and never below `-1074` (subnormal range). -/
def ulpExponent {α : Type} [LinearOrderedField α] [FloorRing α] (x : α) : Int :=
  max (Int.log 2 (abs x) - 52) (-1074)

/-- Rounding of a number to binary64 (round to nearest, ties to even): the
nearest multiple of `2 ^ ulpExponent x`.  Overflow to infinity is not
modelled. -/
def roundBinary64 {α : Type} [LinearOrderedField α] [FloorRing α] (x : α) : α :=
  ((roundEven (x / (2 : α) ^ ulpExponent x) : Int) : α) * (2 : α) ^ ulpExponent x

/-- A finite binary64 value, held as the number it denotes. -/
structure Binary64 (α : Type) where
  val : α

/-- A function on numbers followed by rounding, as a function on binary64
values. -/
def Binary64.lift {α : Type} [LinearOrderedField α] [FloorRing α] (f : α → α)
    (x : Binary64 α) : Binary64 α :=
  ⟨roundBinary64 (f x.val)⟩

instance Binary64.instAdd {α : Type} [LinearOrderedField α] [FloorRing α] :
    Add (Binary64 α) := ⟨fun x y => ⟨roundBinary64 (x.val + y.val)⟩⟩

instance Binary64.instSub {α : Type} [LinearOrderedField α] [FloorRing α] :
    Sub (Binary64 α) := ⟨fun x y => ⟨roundBinary64 (x.val - y.val)⟩⟩

instance Binary64.instMul {α : Type} [LinearOrderedField α] [FloorRing α] :
    Mul (Binary64 α) := ⟨fun x y => ⟨roundBinary64 (x.val * y.val)⟩⟩

instance Binary64.instDiv {α : Type} [LinearOrderedField α] [FloorRing α] :
    Div (Binary64 α) := ⟨fun x y => ⟨roundBinary64 (x.val / y.val)⟩⟩

instance Binary64.instOfScientific {α : Type} [LinearOrderedField α] [FloorRing α] :
    OfScientific (Binary64 α) :=
  ⟨fun m s e => ⟨roundBinary64 (OfScientific.ofScientific m s e)⟩⟩

instance Binary64.instIntCast {α : Type} [LinearOrderedField α] [FloorRing α] :
    IntCast (Binary64 α) := ⟨fun n => ⟨roundBinary64 ((n : Int) : α)⟩⟩

instance Binary64.instZero {α : Type} [LinearOrderedField α] : Zero (Binary64 α) := ⟨⟨0⟩⟩

instance Binary64.instLT {α : Type} [LinearOrderedField α] : LT (Binary64 α) :=
  ⟨fun x y => x.val < y.val⟩

instance Binary64.instDecidableLT {α : Type} [LinearOrderedField α] :
    DecidableRel (fun a b : Binary64 α => a < b) :=
  fun x y => inferInstanceAs (Decidable (x.val < y.val))

/-! ## Loop lemmas -/

theorem forLoop_zero {σ : Type} (body : Nat → σ → Except Fault σ) (s : σ) :
    forLoop 0 body s = .ok s := rfl

theorem forLoop_succ {σ : Type} (n : Nat) (body : Nat → σ → Except Fault σ) (s : σ) :
    forLoop (n + 1) body s = forLoop n body s >>= body n := by
  unfold forLoop
  rw [List.range_succ, List.foldlM_append]
  congr 1
  funext t
  simp [List.foldlM]

theorem wrap64_of_range (x : Int) (h0 : 0 ≤ x) (h1 : x < 2 ^ 63) : wrap64 x = x := by
  unfold wrap64
  rw [Int.emod_eq_of_lt (by omega) (by omega)]
  omega

theorem countInside_zero {α : Type} [Add α] [Mul α] [OfScientific α] [LE α]
    [DecidableRel (fun a b : α => a ≤ b)] (draws : Nat → α) : countInside draws 0 = 0 := rfl

theorem countInside_succ {α : Type} [Add α] [Mul α] [OfScientific α] [LE α]
    [DecidableRel (fun a b : α => a ≤ b)] (draws : Nat → α) (n : Nat) :
    countInside draws (n + 1) = countInside draws n +
      (if draws (2 * n) * draws (2 * n) + draws (2 * n + 1) * draws (2 * n + 1) ≤ (1.0 : α)
        then 1 else 0) := by
  unfold countInside
  rw [List.range_succ, List.filter_append, List.length_append]
  by_cases h : draws (2 * n) * draws (2 * n) + draws (2 * n + 1) * draws (2 * n + 1) ≤ (1.0 : α)
  · simp [List.filter, h]
  · simp [List.filter, h]

theorem countInside_le {α : Type} [Add α] [Mul α] [OfScientific α] [LE α]
    [DecidableRel (fun a b : α => a ≤ b)] (draws : Nat → α) (n : Nat) :
    countInside draws n ≤ n := by
  unfold countInside
  calc _ ≤ (List.range n).length := List.length_filter_le _ _
    _ = n := List.length_range n

/-- After `n < 2^63` iterations the counter holds `countInside draws n`,
unwrapped, and `2 * n` draws have been taken. -/
theorem estimatePi_loop {α : Type} [Add α] [Mul α] [OfScientific α] [LE α]
    [DecidableRel (fun a b : α => a ≤ b)] (draws : Nat → α) (n : Nat) (hn : n < 2 ^ 63) :
    forLoop n (fun _ s => (pure (estimatePiBody draws s) : Except Fault PiState))
        { pointInCircle := 0, gen := 0 }
      = .ok { pointInCircle := (countInside draws n : Int), gen := 2 * n } := by
  induction n with
  | zero => rfl
  | succ k ih =>
    rw [forLoop_succ, ih (by omega)]
    have hle := countInside_le draws k
    have hw : wrap64 ((countInside draws k : Int) + 1) = (countInside draws k : Int) + 1 :=
      wrap64_of_range _ (by omega) (by omega)
    show (pure (estimatePiBody draws _) : Except Fault PiState) = _
    unfold estimatePiBody
    rw [countInside_succ]
    by_cases h : draws (2 * k) * draws (2 * k) + draws (2 * k + 1) * draws (2 * k + 1)
        ≤ (1.0 : α)
    · simp only [h, if_true, hw]
      simp [pure, Except.pure]
      omega
    · simp only [h, if_false]
      simp [pure, Except.pure]
      omega


/-- Invariant rule for `forLoop`: an invariant that holds initially and is
carried by every iteration without fault holds at the end, and the loop ends
without fault. -/
theorem forLoop_inv {σ : Type} (I : Nat → σ → Prop) (n : Nat)
    (body : Nat → σ → Except Fault σ) (s : σ) (h0 : I 0 s)
    (hstep : ∀ i, i < n → ∀ t, I i t → ∃ u, body i t = .ok u ∧ I (i + 1) u) :
    ∃ t, forLoop n body s = .ok t ∧ I n t := by
  induction n with
  | zero => exact ⟨s, rfl, h0⟩
  | succ k ih =>
    obtain ⟨t, ht, hI⟩ := ih (fun i hi => hstep i (by omega))
    obtain ⟨u, hu, hI2⟩ := hstep k (by omega) t hI
    refine ⟨u, ?_, hI2⟩
    rw [forLoop_succ, ht]
    exact hu

theorem entry_exists {α : Type} {M : List (List α)} {rows cols : Nat}
    (hM : Shape M rows cols) {r c : Nat} (hr : r < rows) (hc : c < cols) :
    ∃ a, entry M r c = some a := by
  obtain ⟨hlen, hrow⟩ := hM
  have h1 : r < M.length := by omega
  have h2 : M[r]? = some M[r] := List.getElem?_eq_getElem h1
  have h3 : (M[r]).length = cols := hrow r _ h2
  have h4 : c < (M[r]).length := by omega
  refine ⟨(M[r])[c], ?_⟩
  unfold entry
  rw [h2]
  exact List.getElem?_eq_getElem h4

theorem readCell_of_entry {α : Type} {M : List (List α)} {i j : Nat} {a : α}
    (h : entry M i j = some a) : readCell M i j = .ok a := by
  unfold entry at h
  unfold readCell
  cases hr : M[i]? with
  | none => simp [hr] at h
  | some row =>
    rw [hr] at h
    simp only [Option.some_bind] at h
    simp [h]

/-- An assignment inside the matrix succeeds, keeps the shape and changes the
assigned entry only. -/
theorem writeCell_spec {α : Type} {M : List (List α)} {rows cols : Nat}
    (hM : Shape M rows cols) {i j : Nat} (hi : i < rows) (hj : j < cols) (v : α) :
    ∃ M2, writeCell M i j v = .ok M2 ∧ Shape M2 rows cols ∧
      ∀ r c, entry M2 r c = if r = i ∧ c = j then some v else entry M r c := by
  obtain ⟨hlen, hrow⟩ := hM
  have h1 : i < M.length := by omega
  have h2 : M[i]? = some M[i] := List.getElem?_eq_getElem h1
  have h3 : (M[i]).length = cols := hrow i _ h2
  have h4 : j < (M[i]).length := by omega
  refine ⟨M.set i ((M[i]).set j v), ?_, ⟨?_, ?_⟩, ?_⟩
  · unfold writeCell
    rw [h2]
    simp [h4]
  · rw [List.length_set]; exact hlen
  · intro r row hr
    rw [List.getElem?_set] at hr
    by_cases hri : i = r
    · rw [if_pos hri, if_pos h1] at hr
      cases hr
      rw [List.length_set]; exact h3
    · rw [if_neg hri] at hr
      exact hrow r row hr
  · intro r c
    unfold entry
    rw [List.getElem?_set]
    by_cases hri : i = r
    · subst hri
      rw [if_pos rfl, if_pos h1, h2]
      simp only [Option.some_bind, true_and]
      rw [List.getElem?_set]
      by_cases hcj : j = c
      · subst hcj
        simp [h4]
      · rw [if_neg hcj, if_neg (fun h => hcj h.symm)]
    · rw [if_neg hri, if_neg (fun h => hri h.1.symm)]


theorem shape_replicate {α : Type} (rows cols : Nat) (z : α) :
    Shape (List.replicate rows (List.replicate cols z)) rows cols := by
  refine ⟨List.length_replicate _ _, ?_⟩
  intro r row hr
  rw [List.getElem?_replicate] at hr
  by_cases h : r < rows
  · rw [if_pos h] at hr
    cases hr
    exact List.length_replicate _ _
  · rw [if_neg h] at hr
    cases hr

theorem simulateStep_eq {α : Type} [Add α] [Sub α] [Mul α] [Div α] [OfScientific α]
    [IntCast α] (exp sqrt : α → α) (draws : Nat → α) (params : SimulationParams α)
    {M M2 : List (List α)} {i j g : Nat} {a : α} (ha : entry M i j = some a)
    (hw : writeCell M i (j + 1) (a * growth exp sqrt params (draws g)) = .ok M2) :
    simulateStep exp draws params (params.T / ((params.numSteps : Int) : α))
        (sqrt (params.T / ((params.numSteps : Int) : α))) i j (M, g)
      = .ok (M2, g + 1) := by
  unfold simulateStep
  simp only [readCell_of_entry ha, bind, Except.bind]
  unfold growth at hw
  rw [hw]
  rfl

theorem wrap32_of_range (x : Int) (h0 : -2 ^ 31 ≤ x) (h1 : x < 2 ^ 31) : wrap32 x = x := by
  unfold wrap32
  rw [Int.emod_eq_of_lt (by omega) (by omega)]
  omega

/-- What `simulateStockPrices` returns for non-negative counts with
`numSteps + 1` in the `int` range: a matrix of `numPaths` rows and
`numSteps + 1` columns whose column 0 holds `S0` and whose entry `(r, c + 1)` is
entry `(r, c)` times the growth factor of draw number `r * numSteps + c`. -/
theorem simulateStockPrices_spec {α : Type} [Add α] [Sub α] [Mul α] [Div α]
    [OfScientific α] [IntCast α] (exp sqrt : α → α) (draws : Nat → α)
    (params : SimulationParams α) (hS : 0 ≤ params.numSteps)
    (hmax : params.numSteps < 2 ^ 31 - 1) (hP : 0 ≤ params.numPaths) :
    ∃ M, simulateStockPrices exp sqrt draws params = .ok M ∧
      Shape M params.numPaths.toNat (params.numSteps.toNat + 1) ∧
      (∀ r, r < params.numPaths.toNat → entry M r 0 = some params.S0) ∧
      (∀ r c, r < params.numPaths.toNat → c < params.numSteps.toNat →
        ∃ a, entry M r c = some a ∧
          entry M r (c + 1)
            = some (a * growth exp sqrt params (draws (r * params.numSteps.toNat + c)))) := by
  have hrow : vectorOfSize (wrap32 (params.numSteps + 1)) (0.0 : α)
      = .ok (List.replicate (params.numSteps.toNat + 1) (0.0 : α)) := by
    rw [wrap32_of_range _ (by omega) (by omega)]
    unfold vectorOfSize
    rw [if_neg (by omega)]
    congr 2
    omega
  have hmat : vectorOfSize params.numPaths (List.replicate (params.numSteps.toNat + 1) (0.0 : α))
      = .ok (List.replicate params.numPaths.toNat
          (List.replicate (params.numSteps.toNat + 1) (0.0 : α))) := by
    unfold vectorOfSize
    rw [if_neg (by omega)]
  -- first loop: column 0
  obtain ⟨M1, hloop1, hshape1, hcol1⟩ := forLoop_inv
    (fun i (M : List (List α)) => Shape M params.numPaths.toNat (params.numSteps.toNat + 1) ∧
      ∀ r, r < i → entry M r 0 = some params.S0)
    params.numPaths.toNat (fun i M => writeCell M i 0 params.S0)
    (List.replicate params.numPaths.toNat (List.replicate (params.numSteps.toNat + 1) (0.0 : α)))
    ⟨shape_replicate _ _ _, fun r hr => absurd hr (Nat.not_lt_zero r)⟩
    (by
      intro i hi M ⟨hsh, hcol⟩
      obtain ⟨M2, hw, hsh2, hent⟩ := writeCell_spec hsh hi (Nat.succ_pos _) params.S0
      refine ⟨M2, hw, hsh2, ?_⟩
      intro r hr
      rw [hent]
      by_cases h : r = i
      · rw [if_pos ⟨h, rfl⟩]
      · rw [if_neg (fun h2 => h h2.1)]
        exact hcol r (by omega))
  -- second loop: the paths
  obtain ⟨st, hloop2, hshape2, hgen2, hcol2, hrec2⟩ := forLoop_inv
    (fun i (st : List (List α) × Nat) =>
      Shape st.1 params.numPaths.toNat (params.numSteps.toNat + 1) ∧
      st.2 = i * params.numSteps.toNat ∧
      (∀ r, r < params.numPaths.toNat → entry st.1 r 0 = some params.S0) ∧
      (∀ r c, r < i → c < params.numSteps.toNat →
        ∃ a, entry st.1 r c = some a ∧
          entry st.1 r (c + 1)
            = some (a * growth exp sqrt params (draws (r * params.numSteps.toNat + c)))))
    params.numPaths.toNat
    (fun i st => forLoop params.numSteps.toNat
      (fun j st => simulateStep exp draws params (params.T / ((params.numSteps : Int) : α))
        (sqrt (params.T / ((params.numSteps : Int) : α))) i j st) st)
    (M1, 0)
    ⟨hshape1, by simp, hcol1, fun r c hr => absurd hr (Nat.not_lt_zero r)⟩
    (by
      intro i hi st ⟨hsh, hgen, hcol, hrec⟩
      obtain ⟨u, hu, hsh3, hgen3, hcol3, hrec3, hrow3⟩ := forLoop_inv
        (fun j (u : List (List α) × Nat) =>
          Shape u.1 params.numPaths.toNat (params.numSteps.toNat + 1) ∧
          u.2 = i * params.numSteps.toNat + j ∧
          (∀ r, r < params.numPaths.toNat → entry u.1 r 0 = some params.S0) ∧
          (∀ r c, r < i → c < params.numSteps.toNat →
            ∃ a, entry u.1 r c = some a ∧
              entry u.1 r (c + 1)
                = some (a * growth exp sqrt params (draws (r * params.numSteps.toNat + c)))) ∧
          (∀ c, c < j →
            ∃ a, entry u.1 i c = some a ∧
              entry u.1 i (c + 1)
                = some (a * growth exp sqrt params (draws (i * params.numSteps.toNat + c)))))
        params.numSteps.toNat
        (fun j st => simulateStep exp draws params (params.T / ((params.numSteps : Int) : α))
          (sqrt (params.T / ((params.numSteps : Int) : α))) i j st)
        st
        ⟨hsh, by omega, hcol, hrec, fun c hc => absurd hc (Nat.not_lt_zero c)⟩
        (by
          intro j hj u ⟨hsh4, hgen4, hcol4, hrec4, hrow4⟩
          obtain ⟨a, ha⟩ := entry_exists hsh4 hi (show j < params.numSteps.toNat + 1 by omega)
          obtain ⟨M2, hw, hsh5, hent⟩ := writeCell_spec hsh4 hi
            (show j + 1 < params.numSteps.toNat + 1 by omega)
            (a * growth exp sqrt params (draws u.2))
          refine ⟨(M2, u.2 + 1), ?_, hsh5, ?_, ?_, ?_, ?_⟩
          · exact simulateStep_eq exp sqrt draws params (M := u.1) (g := u.2) ha hw
          · show u.2 + 1 = i * params.numSteps.toNat + (j + 1)
            omega
          · intro r hr
            show entry M2 r 0 = _
            rw [hent, if_neg (fun h => absurd h.2 (by omega))]
            exact hcol4 r hr
          · intro r c hr hc
            show ∃ a, entry M2 r c = some a ∧ entry M2 r (c + 1) = _
            rw [hent, hent, if_neg (fun h => absurd h.1 (by omega)),
              if_neg (fun h => absurd h.1 (by omega))]
            exact hrec4 r c hr hc
          · intro c hc
            show ∃ a, entry M2 i c = some a ∧ entry M2 i (c + 1) = _
            rw [hent, hent, if_neg (fun h => absurd h.2 (by omega))]
            by_cases hcj : c = j
            · subst hcj
              rw [if_pos ⟨rfl, rfl⟩]
              exact ⟨a, ha, by rw [hgen4]⟩
            · rw [if_neg (fun h => absurd h.2 (by omega))]
              exact hrow4 c (by omega))
      refine ⟨u, hu, hsh3, ?_, hcol3, ?_⟩
      · rw [hgen3]; ring
      · intro r c hr hc
        by_cases hri : r = i
        · subst hri
          exact hrow3 c hc
        · exact hrec3 r c (by omega) hc)
  refine ⟨st.1, ?_, hshape2, hcol2, hrec2⟩
  unfold simulateStockPrices
  simp only [hrow, hmat, hloop1, hloop2, bind, Except.bind, pure, Except.pure]


/-- Every entry of the returned matrix satisfies a property that `S0` has and
that multiplication by a growth factor preserves. -/
theorem entry_induction {α : Type} [Add α] [Sub α] [Mul α] [Div α] [OfScientific α]
    [IntCast α] (exp sqrt : α → α) (draws : Nat → α) (params : SimulationParams α)
    (M : List (List α)) (P : α → Prop) (h0 : P params.S0)
    (hstep : ∀ a Z, P a → P (a * growth exp sqrt params Z))
    (hcol : ∀ r, r < params.numPaths.toNat → entry M r 0 = some params.S0)
    (hrec : ∀ r c, r < params.numPaths.toNat → c < params.numSteps.toNat →
      ∃ a, entry M r c = some a ∧
        entry M r (c + 1)
          = some (a * growth exp sqrt params (draws (r * params.numSteps.toNat + c))))
    (r c : Nat) (hr : r < params.numPaths.toNat) (hc : c ≤ params.numSteps.toNat) :
    ∃ a, entry M r c = some a ∧ P a := by
  induction c with
  | zero => exact ⟨params.S0, hcol r hr, h0⟩
  | succ k ih =>
    obtain ⟨a, ha, hPa⟩ := ih (by omega)
    obtain ⟨b, hb, hnext⟩ := hrec r k hr (by omega)
    rw [ha] at hb
    cases hb
    exact ⟨_, hnext, hstep a _ hPa⟩

theorem getLast?_eq_entry {α : Type} {M : List (List α)} {rows cols : Nat}
    (hM : Shape M rows (cols + 1)) {row : List α} (hrow : row ∈ M) :
    ∃ r, r < rows ∧ entry M r cols = row.getLast? := by
  obtain ⟨r, hr, hget⟩ := List.getElem_of_mem hrow
  have h2 : M[r]? = some row := by rw [List.getElem?_eq_getElem hr, hget]
  refine ⟨r, by rw [← hM.1]; exact hr, ?_⟩
  unfold entry
  rw [h2, List.getLast?_eq_getElem?, hM.2 r row h2]
  rfl

theorem growth_real (params : SimulationParams ℝ) (Z : ℝ) :
    growth Real.exp Real.sqrt params Z
      = Real.exp ((params.mu - 0.5 * params.sigma ^ 2) * (params.T / (params.numSteps : ℝ))
          + params.sigma * Real.sqrt (params.T / (params.numSteps : ℝ)) * Z) := by
  unfold growth
  congr 1
  ring


/-! ## Lemmas about `calculateStatistics` -/

/-- On rows that are all non-empty the first loop collects the last entry of
every row, in order. -/
theorem collectFinalPrices_spec {α : Type} (M : List (List α))
    (hrows : ∀ row ∈ M, row ≠ []) :
    ∃ fp, collectFinalPrices M = .ok fp ∧
      List.Forall₂ (fun row p => row.getLast? = some p) M fp := by
  induction M with
  | nil => exact ⟨[], rfl, List.Forall₂.nil⟩
  | cons row rest ih =>
    obtain ⟨fp, hfp, hall⟩ := ih (fun r hr => hrows r (List.mem_cons_of_mem _ hr))
    have hne : row ≠ [] := hrows row (List.mem_cons_self _ _)
    have hlast : row.getLast? = some (row.getLast hne) := List.getLast?_eq_getLast _ hne
    refine ⟨row.getLast hne :: fp, ?_, List.Forall₂.cons hlast hall⟩
    unfold collectFinalPrices back
    rw [hlast, hfp]
    rfl

theorem foldl_accumulate_sum (l : List ℝ) (acc : StatsAcc ℝ) :
    (l.foldl accumulate acc).sum = acc.sum + l.sum := by
  induction l generalizing acc with
  | nil => simp
  | cons p ps ih =>
    rw [List.foldl_cons, ih, List.sum_cons]
    show acc.sum + p + ps.sum = _
    ring

theorem foldl_accumulate_sumSq (l : List ℝ) (acc : StatsAcc ℝ) :
    (l.foldl accumulate acc).sumSq = acc.sumSq + (l.map (fun p => p ^ 2)).sum := by
  induction l generalizing acc with
  | nil => simp
  | cons p ps ih =>
    rw [List.foldl_cons, ih, List.map_cons, List.sum_cons]
    show acc.sumSq + p * p + _ = _
    ring

theorem foldl_accumulate_const {α : Type} [Add α] [Mul α] [LT α]
    [DecidableRel (fun a b : α => a < b)] (l : List α) (acc : StatsAcc α) (c : α)
    (hirr : ¬ c < c) (hl : ∀ p ∈ l, p = c) (hmin : acc.min = c) (hmax : acc.max = c) :
    (l.foldl accumulate acc).min = c ∧ (l.foldl accumulate acc).max = c := by
  induction l generalizing acc with
  | nil => exact ⟨hmin, hmax⟩
  | cons p ps ih =>
    rw [List.foldl_cons]
    have hp : p = c := hl p (List.mem_cons_self _ _)
    apply ih _ (fun q hq => hl q (List.mem_cons_of_mem _ hq))
    · show (if p < acc.min then p else acc.min) = c
      rw [hp, hmin, if_neg hirr]
    · show (if acc.max < p then p else acc.max) = c
      rw [hp, hmax, if_neg hirr]

/-- The result of `calculateStatistics` once the final prices are known. -/
theorem calculateStatistics_eq (exp sqrt : ℝ → ℝ) (M : List (List ℝ))
    (params : SimulationParams ℝ) (p : ℝ) (ps : List ℝ)
    (hfp : collectFinalPrices M = .ok (p :: ps)) :
    calculateStatistics exp sqrt M params = .ok
      { mean := (p :: ps).sum / (params.numPaths : ℝ)
        variance := ((p :: ps).map (fun q => q ^ 2)).sum / (params.numPaths : ℝ)
          - ((p :: ps).sum / (params.numPaths : ℝ)) ^ 2
        stdDev := sqrt (((p :: ps).map (fun q => q ^ 2)).sum / (params.numPaths : ℝ)
          - ((p :: ps).sum / (params.numPaths : ℝ)) ^ 2)
        min := ((p :: ps).foldl accumulate
          { sum := (0.0 : ℝ), sumSq := (0.0 : ℝ), min := p, max := p }).min
        max := ((p :: ps).foldl accumulate
          { sum := (0.0 : ℝ), sumSq := (0.0 : ℝ), min := p, max := p }).max
        theoreticalMean := params.S0 * exp (params.mu * params.T) } := by
  unfold calculateStatistics
  rw [hfp]
  simp only [bind, Except.bind, pure, Except.pure, List.getElem?_cons_zero]
  have h1 := foldl_accumulate_sum (p :: ps)
    { sum := (0.0 : ℝ), sumSq := (0.0 : ℝ), min := p, max := p }
  have h2 := foldl_accumulate_sumSq (p :: ps)
    { sum := (0.0 : ℝ), sumSq := (0.0 : ℝ), min := p, max := p }
  have hz : (0.0 : ℝ) = 0 := by norm_num
  simp only [hz, zero_add] at h1 h2
  simp only [hz]
  rw [h1, h2, ← pow_two]


theorem draw_index_injective (S i j i2 j2 : Nat) (hj : j < S) (hj2 : j2 < S)
    (h : i * S + j = i2 * S + j2) : i = i2 ∧ j = j2 := by
  have hS : 0 < S := by omega
  have hd : (j + i * S) / S = (j2 + i2 * S) / S := by rw [Nat.add_comm, h, Nat.add_comm]
  rw [Nat.add_mul_div_right _ _ hS, Nat.add_mul_div_right _ _ hS, Nat.div_eq_of_lt hj,
    Nat.div_eq_of_lt hj2] at hd
  have hi : i = i2 := by omega
  subst hi
  exact ⟨rfl, by omega⟩

/-- At `numSteps = INT_MAX` the column count `numSteps + 1` wraps to a negative
`int` and the vector constructor throws: no matrix is returned. -/
theorem simulateStockPrices_overflow {α : Type} [Add α] [Sub α] [Mul α] [Div α]
    [OfScientific α] [IntCast α] (exp sqrt : α → α) (draws : Nat → α)
    (params : SimulationParams α) (h : params.numSteps = 2 ^ 31 - 1) :
    simulateStockPrices exp sqrt draws params = .error Fault.lengthError := by
  have hw : wrap32 (params.numSteps + 1) = -2 ^ 31 := by
    rw [h]
    decide
  unfold simulateStockPrices
  simp only [hw, vectorOfSize, bind, Except.bind]
  rfl

/-! ## Claims about `simulateStockPrices` -/

/-- C1, counterexample: `numSteps = 2147483647` and `numPaths = 1000` are both
`> 0`, yet `numSteps + 1` overflows and the call ends in `std::length_error`:
there is no returned matrix for the recurrence to hold of. -/
theorem simulateStockPrices_recurrence_intMax :
    simulateStockPrices Real.exp Real.sqrt (fun _ => (0.5 : ℝ))
        { S0 := 100, mu := 0.05, sigma := 0.2, T := 1, numSteps := 2147483647,
          numPaths := 1000 }
      = .error Fault.lengthError :=
  simulateStockPrices_overflow _ _ _ _ (by decide)

/-- C1, amended: for `0 < numSteps < 2^31 - 1` and `numPaths > 0` and every stream
of normal draws, the returned matrix satisfies `M[i][j+1] = M[i][j] *
exp((mu - 0.5*sigma^2)*dt + sigma*sqrt(dt)*Z)` with `dt = T/numSteps` for every
path `i < numPaths` and step `j < numSteps`, where `Z` is draw number
`i*numSteps + j` of the stream; distinct pairs `(i, j)` use distinct draws. -/
theorem simulateStockPrices_recurrence (draws : Nat → ℝ) (params : SimulationParams ℝ)
    (hS : 0 < params.numSteps) (hmax : params.numSteps < 2 ^ 31 - 1)
    (hP : 0 < params.numPaths) :
    ∃ M, simulateStockPrices Real.exp Real.sqrt draws params = .ok M ∧
      (∀ i j : Nat, (i : Int) < params.numPaths → (j : Int) < params.numSteps →
        ∃ a, entry M i j = some a ∧
          entry M i (j + 1) = some (a * Real.exp
            ((params.mu - 0.5 * params.sigma ^ 2) * (params.T / (params.numSteps : ℝ))
              + params.sigma * Real.sqrt (params.T / (params.numSteps : ℝ))
                * draws (i * params.numSteps.toNat + j)))) ∧
      (∀ i j i2 j2 : Nat, (j : Int) < params.numSteps → (j2 : Int) < params.numSteps →
        i * params.numSteps.toNat + j = i2 * params.numSteps.toNat + j2 → i = i2 ∧ j = j2) := by
  obtain ⟨M, hM, -, -, hrec⟩ := simulateStockPrices_spec Real.exp Real.sqrt draws params
    (le_of_lt hS) hmax (le_of_lt hP)
  refine ⟨M, hM, ?_, ?_⟩
  · intro i j hi hj
    obtain ⟨a, ha, hnext⟩ := hrec i j (by omega) (by omega)
    exact ⟨a, ha, by rw [hnext, growth_real]⟩
  · intro i j i2 j2 hj hj2 h
    exact draw_index_injective _ i j i2 j2 (by omega) (by omega) h

theorem simulateStockPrices_recurrence_witness :
    (0 : Int) < (mainParams ℝ).numSteps ∧ (mainParams ℝ).numSteps < 2 ^ 31 - 1 ∧
    (0 : Int) < (mainParams ℝ).numPaths ∧
    ∃ M, simulateStockPrices Real.exp Real.sqrt (fun _ => (0.5 : ℝ)) (mainParams ℝ) = .ok M ∧
      (∀ i j : Nat, (i : Int) < (mainParams ℝ).numPaths → (j : Int) < (mainParams ℝ).numSteps →
        ∃ a, entry M i j = some a ∧
          entry M i (j + 1) = some (a * Real.exp
            (((mainParams ℝ).mu - 0.5 * (mainParams ℝ).sigma ^ 2)
                * ((mainParams ℝ).T / ((mainParams ℝ).numSteps : ℝ))
              + (mainParams ℝ).sigma * Real.sqrt ((mainParams ℝ).T / ((mainParams ℝ).numSteps : ℝ))
                * (fun _ : Nat => (0.5 : ℝ)) (i * (mainParams ℝ).numSteps.toNat + j)))) ∧
      (∀ i j i2 j2 : Nat, (j : Int) < (mainParams ℝ).numSteps →
        (j2 : Int) < (mainParams ℝ).numSteps →
        i * (mainParams ℝ).numSteps.toNat + j = i2 * (mainParams ℝ).numSteps.toNat + j2 →
        i = i2 ∧ j = j2) :=
  ⟨by decide, by decide, by decide,
    simulateStockPrices_recurrence (fun _ => (0.5 : ℝ)) (mainParams ℝ) (by decide) (by decide)
      (by decide)⟩

/-- C5, counterexample: `numSteps = 2147483647` and `numPaths = 3` are both
`> 0`, yet `numSteps + 1` overflows and the call ends in `std::length_error`:
no matrix, hence no column 0, is returned. -/
theorem simulateStockPrices_col0_intMax :
    simulateStockPrices Real.exp Real.sqrt (fun _ => (0.25 : ℝ))
        { S0 := 50, mu := 0.01, sigma := 0.3, T := 2, numSteps := 2147483647,
          numPaths := 3 }
      = .error Fault.lengthError :=
  simulateStockPrices_overflow _ _ _ _ (by decide)

/-- C5, amended: for `numPaths > 0` and `0 < numSteps < 2^31 - 1` and every stream
of draws, in any arithmetic, the returned matrix has `numPaths` rows and column
0 of every row is `S0` itself: the stepping loop, which writes columns `j + 1`
only, leaves it as the first loop set it. -/
theorem simulateStockPrices_col0 {α : Type} [Add α] [Sub α] [Mul α] [Div α]
    [OfScientific α] [IntCast α] (exp sqrt : α → α) (draws : Nat → α)
    (params : SimulationParams α) (hS : 0 < params.numSteps)
    (hmax : params.numSteps < 2 ^ 31 - 1) (hP : 0 < params.numPaths) :
    ∃ M, simulateStockPrices exp sqrt draws params = .ok M ∧
      M.length = params.numPaths.toNat ∧ ∀ row ∈ M, row[0]? = some params.S0 := by
  obtain ⟨M, hM, hshape, hcol, -⟩ := simulateStockPrices_spec exp sqrt draws params
    (le_of_lt hS) hmax (le_of_lt hP)
  refine ⟨M, hM, hshape.1, ?_⟩
  intro row hrow
  obtain ⟨r, hr, hget⟩ := List.getElem_of_mem hrow
  have h2 : M[r]? = some row := by rw [List.getElem?_eq_getElem hr, hget]
  have h3 := hcol r (by rw [← hshape.1]; exact hr)
  unfold entry at h3
  rw [h2] at h3
  exact h3

theorem simulateStockPrices_col0_witness :
    (0 : Int) < (mainParams ℝ).numSteps ∧ (mainParams ℝ).numSteps < 2 ^ 31 - 1 ∧
    (0 : Int) < (mainParams ℝ).numPaths ∧
    ∃ M, simulateStockPrices Real.exp Real.sqrt (fun _ => (0.5 : ℝ)) (mainParams ℝ) = .ok M ∧
      M.length = (mainParams ℝ).numPaths.toNat ∧ ∀ row ∈ M, row[0]? = some (mainParams ℝ).S0 :=
  ⟨by decide, by decide, by decide,
    simulateStockPrices_col0 Real.exp Real.sqrt (fun _ => (0.5 : ℝ)) (mainParams ℝ)
      (by decide) (by decide) (by decide)⟩

/-- C8, counterexample: `mu = 0`, `sigma = 0`, `S0 = 100`, `T = 1`, `numPaths = 5`
and `numSteps = 2147483647`, all `> 0` where the claim asks it: `numSteps + 1`
overflows and the call ends in `std::length_error`, with no final price at
all. -/
theorem simulateStockPrices_degenerate_intMax :
    simulateStockPrices Real.exp Real.sqrt (fun _ => (0.5 : ℝ))
        { S0 := 100, mu := 0, sigma := 0, T := 1, numSteps := 2147483647, numPaths := 5 }
      = .error Fault.lengthError :=
  simulateStockPrices_overflow _ _ _ _ (by decide)

/-- C8, amended: with `mu = 0` and `sigma = 0`, for `0 < numSteps < 2^31 - 1` and
`numPaths > 0` and every stream of draws, the returned matrix has `numPaths`
rows and the final price (last entry) of every row is `S0` exactly, whatever
the draws are.  The hypotheses `S0 > 0` and `T > 0` are not needed. -/
theorem simulateStockPrices_degenerate (draws : Nat → ℝ) (params : SimulationParams ℝ)
    (hmu : params.mu = 0) (hsigma : params.sigma = 0)
    (hS : 0 < params.numSteps) (hmax : params.numSteps < 2 ^ 31 - 1)
    (hP : 0 < params.numPaths) :
    ∃ M, simulateStockPrices Real.exp Real.sqrt draws params = .ok M ∧
      M.length = params.numPaths.toNat ∧ ∀ row ∈ M, row.getLast? = some params.S0 := by
  obtain ⟨M, hM, hshape, hcol, hrec⟩ := simulateStockPrices_spec Real.exp Real.sqrt draws
    params (le_of_lt hS) hmax (le_of_lt hP)
  refine ⟨M, hM, hshape.1, ?_⟩
  intro row hrow
  obtain ⟨r, hr, hent⟩ := getLast?_eq_entry hshape hrow
  have hg : ∀ Z, growth Real.exp Real.sqrt params Z = 1 := by
    intro Z
    rw [growth_real, hmu, hsigma]
    norm_num
  obtain ⟨a, ha, heq⟩ := entry_induction Real.exp Real.sqrt draws params M
    (fun a => a = params.S0) rfl (fun a Z h => by rw [hg, mul_one]; exact h) hcol hrec r
    params.numSteps.toNat hr (le_refl _)
  rw [← hent, ha, heq]

theorem simulateStockPrices_degenerate_witness :
    (0 : ℝ) = 0 ∧ (0 : Int) < 10 ∧ (10 : Int) < 2 ^ 31 - 1 ∧ (0 : Int) < 5 ∧
    ∃ M, simulateStockPrices Real.exp Real.sqrt (fun k => (k : ℝ) - 3)
        { S0 := 100, mu := 0, sigma := 0, T := 1, numSteps := 10, numPaths := 5 } = .ok M ∧
      M.length = 5 ∧ ∀ row ∈ M, row.getLast? = some (100 : ℝ) :=
  ⟨rfl, by decide, by decide, by decide, simulateStockPrices_degenerate (fun k => (k : ℝ) - 3)
    { S0 := 100, mu := 0, sigma := 0, T := 1, numSteps := 10, numPaths := 5 } rfl rfl
    (by decide) (by decide) (by decide)⟩

/-- C9, counterexample: with `numPaths = 0` the function returns the empty
matrix, and with `numSteps = 0` it returns rows holding `S0` alone; no error is
signalled in either case. -/
theorem simulateStockPrices_zero_counts_return :
    simulateStockPrices Real.exp Real.sqrt (fun _ => (0 : ℝ))
        { S0 := 100, mu := 0.05, sigma := 0.2, T := 1, numSteps := 252, numPaths := 0 }
      = .ok [] ∧
    simulateStockPrices Real.exp Real.sqrt (fun _ => (0 : ℝ))
        { S0 := 100, mu := 0.05, sigma := 0.2, T := 1, numSteps := 0, numPaths := 2 }
      = .ok [[100], [100]] := by
  constructor
  · obtain ⟨M, hM, hshape, -, -⟩ := simulateStockPrices_spec Real.exp Real.sqrt
      (fun _ => (0 : ℝ))
      { S0 := 100, mu := 0.05, sigma := 0.2, T := 1, numSteps := 252, numPaths := 0 }
      (by decide) (by decide) (by decide)
    rw [hM, List.length_eq_zero.mp hshape.1]
  · obtain ⟨M, hM, hshape, hcol, -⟩ := simulateStockPrices_spec Real.exp Real.sqrt
      (fun _ => (0 : ℝ))
      { S0 := 100, mu := 0.05, sigma := 0.2, T := 1, numSteps := 0, numPaths := 2 }
      (by decide) (by decide) (by decide)
    rw [hM]
    congr 1
    have hlen : M.length = 2 := hshape.1
    match M, hlen, hshape, hcol with
    | [r0, r1], _, hshape, hcol =>
      have h0 : r0.length = 1 := hshape.2 0 r0 rfl
      have h1 : r1.length = 1 := hshape.2 1 r1 rfl
      have c0 := hcol 0 (by decide)
      have c1 := hcol 1 (by decide)
      match r0, r1, h0, h1, c0, c1 with
      | [x], [y], _, _, c0, c1 =>
        simp only [entry, List.getElem?_cons_zero, List.getElem?_cons_succ, Option.some_bind,
          Option.some.injEq] at c0 c1
        rw [c0, c1]

/-- C9, amended: `simulateStockPrices` checks none of its arguments and never
signals InvalidArgument.  For `numPaths = 0` (and `0 ≤ numSteps < 2^31 - 1`) it
returns the empty matrix; for `numSteps = 0` (and `numPaths ≥ 0`) it returns
`numPaths` rows that hold `S0` alone; the error it signals is the
`std::length_error` of a vector constructor, raised when `numPaths < 0`, when
`numSteps < -1`, and when `numSteps = 2^31 - 1`, where `numSteps + 1`
overflows. -/
theorem simulateStockPrices_unchecked {α : Type} [Add α] [Sub α] [Mul α] [Div α]
    [OfScientific α] [IntCast α] (exp sqrt : α → α) (draws : Nat → α)
    (params : SimulationParams α) :
    (0 ≤ params.numSteps → params.numSteps < 2 ^ 31 - 1 → params.numPaths = 0 →
      simulateStockPrices exp sqrt draws params = .ok []) ∧
    (params.numSteps = 0 → 0 ≤ params.numPaths →
      simulateStockPrices exp sqrt draws params
        = .ok (List.replicate params.numPaths.toNat [params.S0])) ∧
    (params.numPaths < 0 ∨ (-2 ^ 31 ≤ params.numSteps ∧ params.numSteps < -1)
        ∨ params.numSteps = 2 ^ 31 - 1 →
      simulateStockPrices exp sqrt draws params = .error Fault.lengthError) := by
  refine ⟨?_, ?_, ?_⟩
  · intro hS hmax hP
    obtain ⟨M, hM, hshape, -, -⟩ := simulateStockPrices_spec exp sqrt draws params hS hmax
      (le_of_eq hP.symm)
    rw [hP] at hshape
    rw [hM, List.length_eq_zero.mp hshape.1]
  · intro hS hP
    obtain ⟨M, hM, hshape, hcol, -⟩ := simulateStockPrices_spec exp sqrt draws params
      (le_of_eq hS.symm) (by rw [hS]; decide) hP
    rw [hM]
    congr 1
    rw [List.eq_replicate_iff]
    refine ⟨hshape.1, ?_⟩
    intro row hrow
    obtain ⟨r, hr, hget⟩ := List.getElem_of_mem hrow
    have h2 : M[r]? = some row := by rw [List.getElem?_eq_getElem hr, hget]
    have hlen : row.length = 1 := by
      have := hshape.2 r row h2
      rw [hS] at this
      exact this
    have h3 := hcol r (by rw [← hshape.1]; exact hr)
    unfold entry at h3
    rw [h2] at h3
    simp only [Option.some_bind] at h3
    match row, hlen, h3 with
    | [x], _, h3 =>
      simp only [List.getElem?_cons_zero, Option.some.injEq] at h3
      rw [h3]
  · intro h
    by_cases h1 : wrap32 (params.numSteps + 1) < 0
    · unfold simulateStockPrices
      simp only [vectorOfSize, if_pos h1, bind, Except.bind]
    · have h2 : params.numPaths < 0 := by
        rcases h with h | h | h
        · exact h
        · exfalso
          apply h1
          rw [wrap32_of_range _ (by omega) (by omega)]
          omega
        · exfalso
          apply h1
          rw [h]
          decide
      unfold simulateStockPrices
      simp only [vectorOfSize, if_neg h1, if_pos h2, bind, Except.bind]

theorem simulateStockPrices_unchecked_witness :
    simulateStockPrices Real.exp Real.sqrt (fun k => (k : ℝ))
        { S0 := 100, mu := 0.05, sigma := 0.2, T := 1, numSteps := 3, numPaths := 0 }
      = .ok [] ∧
    simulateStockPrices Real.exp Real.sqrt (fun k => (k : ℝ))
        { S0 := 100, mu := 0.05, sigma := 0.2, T := 1, numSteps := 0, numPaths := 4 }
      = .ok [[100], [100], [100], [100]] ∧
    simulateStockPrices Real.exp Real.sqrt (fun k => (k : ℝ))
        { S0 := 100, mu := 0.05, sigma := 0.2, T := 1, numSteps := 3, numPaths := -2 }
      = .error Fault.lengthError ∧
    simulateStockPrices Real.exp Real.sqrt (fun k => (k : ℝ))
        { S0 := 100, mu := 0.05, sigma := 0.2, T := 1, numSteps := -5, numPaths := 2 }
      = .error Fault.lengthError :=
  ⟨(simulateStockPrices_unchecked Real.exp Real.sqrt (fun k => (k : ℝ))
      { S0 := 100, mu := 0.05, sigma := 0.2, T := 1, numSteps := 3, numPaths := 0 }).1
      (by decide) (by decide) rfl,
   (simulateStockPrices_unchecked Real.exp Real.sqrt (fun k => (k : ℝ))
      { S0 := 100, mu := 0.05, sigma := 0.2, T := 1, numSteps := 0, numPaths := 4 }).2.1
      rfl (by decide),
   (simulateStockPrices_unchecked Real.exp Real.sqrt (fun k => (k : ℝ))
      { S0 := 100, mu := 0.05, sigma := 0.2, T := 1, numSteps := 3, numPaths := -2 }).2.2
      (Or.inl (by decide)),
   (simulateStockPrices_unchecked Real.exp Real.sqrt (fun k => (k : ℝ))
      { S0 := 100, mu := 0.05, sigma := 0.2, T := 1, numSteps := -5, numPaths := 2 }).2.2
      (Or.inr (Or.inl ⟨by decide, by decide⟩))⟩

/-! ## Claims about `estimatePi` -/

/-- C2: for every `numPoints > 0` (a `long long`, so below `2^63`) and every
stream of uniform draws, `estimatePi` returns `4.0 * k / numPoints`, where `k`
counts the indices `i < numPoints` whose pair `(draw 2i, draw 2i+1)` satisfies
`x*x + y*y ≤ 1.0`; a pair exactly on the boundary `x*x + y*y = 1.0` adds one to
the count. -/
theorem estimatePi_eq_ratio (draws : Nat → ℝ) (numPoints : Int)
    (hpos : 0 < numPoints) (hlt : numPoints < 2 ^ 63) :
    estimatePi draws numPoints
        = .ok ((4.0 : ℝ) * (countInside draws numPoints.toNat : ℝ) / (numPoints : ℝ))
      ∧ ∀ i : Nat, draws (2 * i) ^ 2 + draws (2 * i + 1) ^ 2 = (1.0 : ℝ) →
          countInside draws (i + 1) = countInside draws i + 1 := by
  constructor
  · unfold estimatePi
    rw [estimatePi_loop draws numPoints.toNat (by omega)]
    show Except.ok _ = Except.ok _
    congr 1
    push_cast
    ring
  · intro i hi
    rw [pow_two, pow_two] at hi
    rw [countInside_succ, if_pos (le_of_eq hi)]

theorem estimatePi_eq_ratio_witness :
    (0 : Int) < 1 ∧ (1 : Int) < 2 ^ 63 ∧
      estimatePi (fun k => if k = 0 then (0.6 : ℝ) else (0.8 : ℝ)) 1 = .ok (4 : ℝ) := by
  refine ⟨by decide, by decide, ?_⟩
  have h := (estimatePi_eq_ratio (fun k => if k = 0 then (0.6 : ℝ) else (0.8 : ℝ)) 1
    (by decide) (by decide)).1
  rw [h]
  have hc : countInside (fun k => if k = 0 then (0.6 : ℝ) else (0.8 : ℝ)) (1 : Int).toNat
      = 1 := by
    show countInside _ (0 + 1) = 1
    rw [countInside_succ, countInside_zero]
    norm_num
  rw [hc]
  norm_num

/-- C3: for every `numPoints > 0` (a `long long`) and every stream of draws the
result of `estimatePi` lies in the closed interval `[0.0, 4.0]`. -/
theorem estimatePi_mem_Icc (draws : Nat → ℝ) (numPoints : Int)
    (hpos : 0 < numPoints) (hlt : numPoints < 2 ^ 63) :
    ∃ r : ℝ, estimatePi draws numPoints = .ok r ∧ (0.0 : ℝ) ≤ r ∧ r ≤ (4.0 : ℝ) := by
  have hn : (0 : ℝ) < (numPoints : ℝ) := by exact_mod_cast hpos
  have hloop := estimatePi_loop draws numPoints.toNat (by omega)
  refine ⟨((countInside draws numPoints.toNat : Int) : ℝ) * (4.0 : ℝ) / (numPoints : ℝ),
    ?_, ?_, ?_⟩
  · unfold estimatePi
    rw [hloop]
    rfl
  · have hk : (0 : ℝ) ≤ ((countInside draws numPoints.toNat : Int) : ℝ) := by
      exact_mod_cast Int.natCast_nonneg _
    norm_num
    positivity
  · have hle : ((countInside draws numPoints.toNat : Nat) : ℝ) ≤ (numPoints : ℝ) := by
      have h1 := countInside_le draws numPoints.toNat
      have h2 : ((countInside draws numPoints.toNat : Nat) : Int) ≤ numPoints := by omega
      exact_mod_cast h2
    norm_num
    rw [div_le_iff₀ hn]
    linarith

theorem estimatePi_mem_Icc_witness :
    (0 : Int) < 3 ∧ (3 : Int) < 2 ^ 63 ∧
      ∃ r : ℝ, estimatePi (fun k => (k : ℝ) / 4) 3 = .ok r ∧ (0.0 : ℝ) ≤ r ∧ r ≤ (4.0 : ℝ) :=
  ⟨by decide, by decide, estimatePi_mem_Icc (fun k => (k : ℝ) / 4) 3 (by decide) (by decide)⟩

/-- C10, counterexample: for `numPoints = 0` no error is signalled and an
estimate is returned, the quotient `(0 * 4.0) / 0`. -/
theorem estimatePi_zero_returns :
    estimatePi (fun _ => (0.5 : ℝ)) 0
      = .ok (((0 : Int) : ℝ) * (4.0 : ℝ) / ((0 : Int) : ℝ)) := rfl

/-- C10, amended: `estimatePi` has no error path.  For every `numPoints` it
returns an estimate and signals nothing; for `numPoints ≤ 0` the loop body never
runs and the estimate is the quotient `(0 * 4.0) / numPoints`. -/
theorem estimatePi_never_fails {α : Type} [Add α] [Mul α] [Div α] [OfScientific α]
    [IntCast α] [LE α] [DecidableRel (fun a b : α => a ≤ b)] (draws : Nat → α)
    (numPoints : Int) :
    (∃ r, estimatePi draws numPoints = .ok r) ∧
    (numPoints ≤ 0 → estimatePi draws numPoints
      = .ok (((0 : Int) : α) * (4.0 : α) / ((numPoints : Int) : α))) := by
  constructor
  · obtain ⟨s, hs, -⟩ := forLoop_inv (fun _ (_ : PiState) => True) numPoints.toNat
      (fun _ s => (pure (estimatePiBody draws s) : Except Fault PiState))
      { pointInCircle := 0, gen := 0 } trivial (fun _ _ t _ => ⟨_, rfl, trivial⟩)
    unfold estimatePi
    rw [hs]
    exact ⟨_, rfl⟩
  · intro h
    unfold estimatePi
    rw [Int.toNat_eq_zero.mpr h]
    rfl

theorem estimatePi_never_fails_witness :
    (∃ r, estimatePi (fun k => (k : ℝ) / 4) 5 = .ok r) ∧
    estimatePi (fun k => (k : ℝ) / 4) (-7)
      = .ok (((0 : Int) : ℝ) * (4.0 : ℝ) / (((-7 : Int) : Int) : ℝ)) :=
  ⟨(estimatePi_never_fails (fun k => (k : ℝ) / 4) 5).1,
   (estimatePi_never_fails (fun k => (k : ℝ) / 4) (-7)).2 (by decide)⟩


/-! ## Claims about `calculateStatistics` -/

theorem sum_sq_deviation (l : List ℝ) (m : ℝ) :
    (l.map (fun p => (p - m) ^ 2)).sum
      = (l.map (fun p => p ^ 2)).sum - 2 * m * l.sum + (l.length : ℝ) * m ^ 2 := by
  induction l with
  | nil => simp
  | cons p ps ih =>
    simp only [List.map_cons, List.sum_cons, List.length_cons, ih]
    push_cast
    ring

theorem finalPrices_const {α : Type} {M : List (List α)} {fp : List α} {c : α}
    (h : List.Forall₂ (fun row p => row.getLast? = some p) M fp)
    (hall : ∀ row ∈ M, row.getLast? = some c) : fp = List.replicate M.length c := by
  induction h with
  | nil => rfl
  | cons hrp _ ih =>
    rw [hall _ (List.mem_cons_self _ _)] at hrp
    cases hrp
    rw [List.length_cons, List.replicate_succ,
      ← ih (fun r hr => hall r (List.mem_cons_of_mem _ hr))]

/-- C6: for a non-empty matrix with non-empty rows and `numPaths` equal to the
number of rows, `calculateStatistics` computes `mean = (sum of the last entries)
/ pathCount` and `variance = (sum of their squares) / pathCount - mean^2`, which
is the population variance `(sum of (p - mean)^2) / pathCount` of the final
prices (division by `N`, not by `N - 1`). -/
theorem calculateStatistics_mean_variance (exp sqrt : ℝ → ℝ) (M : List (List ℝ))
    (params : SimulationParams ℝ) (hne : M ≠ []) (hrows : ∀ row ∈ M, row ≠ [])
    (hN : params.numPaths = (M.length : Int)) :
    ∃ fp st, List.Forall₂ (fun row p => row.getLast? = some p) M fp ∧
      calculateStatistics exp sqrt M params = .ok st ∧
      st.mean = fp.sum / (M.length : ℝ) ∧
      st.variance = (fp.map (fun p => p ^ 2)).sum / (M.length : ℝ) - st.mean ^ 2 ∧
      st.variance = (fp.map (fun p => (p - st.mean) ^ 2)).sum / (M.length : ℝ) := by
  obtain ⟨fp, hfp, hall⟩ := collectFinalPrices_spec M hrows
  have hlen : M.length = fp.length := hall.length_eq
  have hcast : ((params.numPaths : Int) : ℝ) = (M.length : ℝ) := by rw [hN]; norm_cast
  have hpos : (M.length : ℝ) ≠ 0 := by
    have : M.length ≠ 0 := fun h => hne (List.length_eq_zero.mp h)
    exact_mod_cast this
  match fp, hfp, hall, hlen with
  | p :: ps, hfp, hall, hlen =>
    refine ⟨p :: ps, _, hall, calculateStatistics_eq exp sqrt M params p ps hfp, ?_, ?_, ?_⟩
    · show _ / _ = _
      rw [hcast]
    · show _ / _ - _ = _ / _ - (_ / _) ^ 2
      rw [hcast]
    · show _ / _ - (_ / _) ^ 2 = _
      rw [hcast, sum_sq_deviation, ← hlen]
      field_simp
      ring
  | [], _, _, hlen =>
    exact absurd (List.length_eq_zero.mp hlen) hne

theorem calculateStatistics_mean_variance_witness :
    ([[100, 90], [100, 110]] : List (List ℝ)) ≠ [] ∧
    (∀ row ∈ ([[100, 90], [100, 110]] : List (List ℝ)), row ≠ []) ∧
    ∃ fp st, List.Forall₂ (fun row p => row.getLast? = some p)
        ([[100, 90], [100, 110]] : List (List ℝ)) fp ∧
      calculateStatistics Real.exp Real.sqrt [[100, 90], [100, 110]]
        { S0 := 100, mu := 0.05, sigma := 0.2, T := 1, numSteps := 1, numPaths := 2 }
        = .ok st ∧
      st.mean = fp.sum / (([[100, 90], [100, 110]] : List (List ℝ)).length : ℝ) ∧
      st.variance = (fp.map (fun p => p ^ 2)).sum
          / (([[100, 90], [100, 110]] : List (List ℝ)).length : ℝ) - st.mean ^ 2 ∧
      st.variance = (fp.map (fun p => (p - st.mean) ^ 2)).sum
          / (([[100, 90], [100, 110]] : List (List ℝ)).length : ℝ) :=
  ⟨by simp, by simp,
    calculateStatistics_mean_variance Real.exp Real.sqrt [[100, 90], [100, 110]]
      { S0 := 100, mu := 0.05, sigma := 0.2, T := 1, numSteps := 1, numPaths := 2 }
      (by simp) (by simp) rfl⟩

/-! ## Further lemmas about `calculateStatistics` -/

/-- The result of `calculateStatistics`, in any arithmetic, once the final
prices are known: every printed value in terms of the accumulators. -/
theorem calculateStatistics_of_finalPrices {α : Type} [Add α] [Sub α] [Mul α] [Div α]
    [OfScientific α] [IntCast α] [LT α] [DecidableRel (fun a b : α => a < b)]
    (exp sqrt : α → α) (M : List (List α)) (params : SimulationParams α) (p : α)
    (ps : List α) (hfp : collectFinalPrices M = .ok (p :: ps)) :
    calculateStatistics exp sqrt M params = .ok
      { mean := ((p :: ps).foldl accumulate
            { sum := (0.0 : α), sumSq := (0.0 : α), min := p, max := p }).sum
          / ((params.numPaths : Int) : α)
        variance := ((p :: ps).foldl accumulate
            { sum := (0.0 : α), sumSq := (0.0 : α), min := p, max := p }).sumSq
            / ((params.numPaths : Int) : α)
          - ((p :: ps).foldl accumulate
              { sum := (0.0 : α), sumSq := (0.0 : α), min := p, max := p }).sum
              / ((params.numPaths : Int) : α)
            * (((p :: ps).foldl accumulate
              { sum := (0.0 : α), sumSq := (0.0 : α), min := p, max := p }).sum
              / ((params.numPaths : Int) : α))
        stdDev := sqrt (((p :: ps).foldl accumulate
            { sum := (0.0 : α), sumSq := (0.0 : α), min := p, max := p }).sumSq
            / ((params.numPaths : Int) : α)
          - ((p :: ps).foldl accumulate
              { sum := (0.0 : α), sumSq := (0.0 : α), min := p, max := p }).sum
              / ((params.numPaths : Int) : α)
            * (((p :: ps).foldl accumulate
              { sum := (0.0 : α), sumSq := (0.0 : α), min := p, max := p }).sum
              / ((params.numPaths : Int) : α)))
        min := ((p :: ps).foldl accumulate
          { sum := (0.0 : α), sumSq := (0.0 : α), min := p, max := p }).min
        max := ((p :: ps).foldl accumulate
          { sum := (0.0 : α), sumSq := (0.0 : α), min := p, max := p }).max
        theoreticalMean := params.S0 * exp (params.mu * params.T) } := by
  unfold calculateStatistics
  rw [hfp]
  simp only [bind, Except.bind, pure, Except.pure, List.getElem?_cons_zero]

/-- A non-empty matrix with non-empty rows has a non-empty list of final
prices, one per row. -/
theorem collectFinalPrices_cons {α : Type} (M : List (List α)) (hne : M ≠ [])
    (hrows : ∀ row ∈ M, row ≠ []) :
    ∃ p ps, collectFinalPrices M = .ok (p :: ps) ∧
      List.Forall₂ (fun row q => row.getLast? = some q) M (p :: ps) := by
  obtain ⟨fp, hfp, hall⟩ := collectFinalPrices_spec M hrows
  match fp, hfp, hall with
  | p :: ps, hfp, hall => exact ⟨p, ps, hfp, hall⟩
  | [], _, hall =>
    exact absurd (List.length_eq_zero.mp hall.length_eq) hne

/-- The running minimum and maximum: both bound the accumulated prices and the
initial values, and both are an accumulated price or the initial value. -/
theorem foldl_accumulate_min_max (l : List ℝ) (acc : StatsAcc ℝ) :
    ((l.foldl accumulate acc).min ≤ acc.min ∧ ∀ q ∈ l, (l.foldl accumulate acc).min ≤ q) ∧
    (acc.max ≤ (l.foldl accumulate acc).max ∧ ∀ q ∈ l, q ≤ (l.foldl accumulate acc).max) ∧
    ((l.foldl accumulate acc).min = acc.min ∨ (l.foldl accumulate acc).min ∈ l) ∧
    ((l.foldl accumulate acc).max = acc.max ∨ (l.foldl accumulate acc).max ∈ l) := by
  induction l generalizing acc with
  | nil => simp
  | cons p ps ih =>
    rw [List.foldl_cons]
    obtain ⟨⟨h1, h2⟩, ⟨h3, h4⟩, h5, h6⟩ := ih (accumulate acc p)
    have hmin : (accumulate acc p).min = if p < acc.min then p else acc.min := rfl
    have hmax : (accumulate acc p).max = if p > acc.max then p else acc.max := rfl
    have hmin1 : (accumulate acc p).min ≤ acc.min := by
      rw [hmin]; split_ifs with h
      · exact le_of_lt h
      · exact le_refl _
    have hmin2 : (accumulate acc p).min ≤ p := by
      rw [hmin]; split_ifs with h
      · exact le_refl _
      · exact not_lt.mp h
    have hmax1 : acc.max ≤ (accumulate acc p).max := by
      rw [hmax]; split_ifs with h
      · exact le_of_lt h
      · exact le_refl _
    have hmax2 : p ≤ (accumulate acc p).max := by
      rw [hmax]; split_ifs with h
      · exact le_refl _
      · exact not_lt.mp h
    have hmin3 : (accumulate acc p).min = acc.min ∨ (accumulate acc p).min = p := by
      rw [hmin]; split_ifs
      · exact Or.inr rfl
      · exact Or.inl rfl
    have hmax3 : (accumulate acc p).max = acc.max ∨ (accumulate acc p).max = p := by
      rw [hmax]; split_ifs
      · exact Or.inr rfl
      · exact Or.inl rfl
    refine ⟨⟨le_trans h1 hmin1, ?_⟩, ⟨le_trans hmax1 h3, ?_⟩, ?_, ?_⟩
    · intro q hq
      rcases List.mem_cons.mp hq with h | h
      · rw [h]; exact le_trans h1 hmin2
      · exact h2 q h
    · intro q hq
      rcases List.mem_cons.mp hq with h | h
      · rw [h]; exact le_trans hmax2 h3
      · exact h4 q h
    · rcases h5 with h | h
      · rcases hmin3 with h' | h'
        · exact Or.inl (h.trans h')
        · exact Or.inr (List.mem_cons.mpr (Or.inl (h.trans h')))
      · exact Or.inr (List.mem_cons_of_mem _ h)
    · rcases h6 with h | h
      · rcases hmax3 with h' | h'
        · exact Or.inl (h.trans h')
        · exact Or.inr (List.mem_cons.mpr (Or.inl (h.trans h')))
      · exact Or.inr (List.mem_cons_of_mem _ h)

/-- The minimum and maximum that `calculateStatistics` starts from the first
final price: bounds of all final prices, attained among them. -/
theorem min_max_of_finalPrices (p : ℝ) (ps : List ℝ) :
    (∀ q ∈ p :: ps,
      ((p :: ps).foldl accumulate
          { sum := (0.0 : ℝ), sumSq := (0.0 : ℝ), min := p, max := p }).min ≤ q ∧
      q ≤ ((p :: ps).foldl accumulate
          { sum := (0.0 : ℝ), sumSq := (0.0 : ℝ), min := p, max := p }).max) ∧
    ((p :: ps).foldl accumulate
        { sum := (0.0 : ℝ), sumSq := (0.0 : ℝ), min := p, max := p }).min ∈ p :: ps ∧
    ((p :: ps).foldl accumulate
        { sum := (0.0 : ℝ), sumSq := (0.0 : ℝ), min := p, max := p }).max ∈ p :: ps := by
  obtain ⟨⟨-, h2⟩, ⟨-, h4⟩, h5, h6⟩ := foldl_accumulate_min_max (p :: ps)
    { sum := (0.0 : ℝ), sumSq := (0.0 : ℝ), min := p, max := p }
  refine ⟨fun q hq => ⟨h2 q hq, h4 q hq⟩, ?_, ?_⟩
  · rcases h5 with h | h
    · rw [h]; exact List.mem_cons_self _ _
    · exact h
  · rcases h6 with h | h
    · rw [h]; exact List.mem_cons_self _ _
    · exact h

/-! ## Further claims about `simulateStockPrices` and `calculateStatistics` -/

/-- C12, counterexample: `numPaths = 2` and `numSteps = 2147483647` are both
`> 0`, yet no matrix of 2 rows by `numSteps + 1` columns is returned:
`numSteps + 1` overflows and the call ends in `std::length_error`. -/
theorem simulateStockPrices_dimensions_intMax :
    simulateStockPrices Real.exp Real.sqrt (fun _ => (0.125 : ℝ))
        { S0 := 100, mu := 0.05, sigma := 0.2, T := 1, numSteps := 2147483647,
          numPaths := 2 }
      = .error Fault.lengthError :=
  simulateStockPrices_overflow _ _ _ _ (by decide)

/-- C12, amended: for `numPaths > 0` and `0 < numSteps < 2^31 - 1`, in any
arithmetic and for every stream of draws, the matrix returned by
`simulateStockPrices` has exactly `numPaths` rows and every row has exactly
`numSteps + 1` entries. -/
theorem simulateStockPrices_dimensions {α : Type} [Add α] [Sub α] [Mul α] [Div α]
    [OfScientific α] [IntCast α] (exp sqrt : α → α) (draws : Nat → α)
    (params : SimulationParams α) (hS : 0 < params.numSteps)
    (hmax : params.numSteps < 2 ^ 31 - 1) (hP : 0 < params.numPaths) :
    ∃ M, simulateStockPrices exp sqrt draws params = .ok M ∧
      (M.length : Int) = params.numPaths ∧
      ∀ row ∈ M, (row.length : Int) = params.numSteps + 1 := by
  obtain ⟨M, hM, hshape, -, -⟩ := simulateStockPrices_spec exp sqrt draws params
    (le_of_lt hS) hmax (le_of_lt hP)
  refine ⟨M, hM, ?_, ?_⟩
  · rw [hshape.1]
    omega
  · intro row hrow
    obtain ⟨r, hr, hget⟩ := List.getElem_of_mem hrow
    have h2 : M[r]? = some row := by rw [List.getElem?_eq_getElem hr, hget]
    rw [hshape.2 r row h2]
    omega

theorem simulateStockPrices_dimensions_witness :
    (0 : Int) < (mainParams ℝ).numSteps ∧ (mainParams ℝ).numSteps < 2 ^ 31 - 1 ∧
    (0 : Int) < (mainParams ℝ).numPaths ∧
    ∃ M, simulateStockPrices Real.exp Real.sqrt (fun k => (k : ℝ) / 7) (mainParams ℝ) = .ok M ∧
      (M.length : Int) = 1000 ∧ ∀ row ∈ M, (row.length : Int) = 252 + 1 :=
  ⟨by decide, by decide, by decide,
    simulateStockPrices_dimensions Real.exp Real.sqrt (fun k => (k : ℝ) / 7) (mainParams ℝ)
      (by decide) (by decide) (by decide)⟩

/-- C13: for a non-empty matrix with non-empty rows, the `min` computed by
`calculateStatistics` is the least final price and the `max` the greatest:
`min ≤ p ≤ max` for every final price `p`, and `min` and `max` are themselves
final prices. -/
theorem calculateStatistics_min_max (exp sqrt : ℝ → ℝ) (M : List (List ℝ))
    (params : SimulationParams ℝ) (hne : M ≠ []) (hrows : ∀ row ∈ M, row ≠ []) :
    ∃ fp st, List.Forall₂ (fun row p => row.getLast? = some p) M fp ∧
      calculateStatistics exp sqrt M params = .ok st ∧
      (∀ p ∈ fp, st.min ≤ p ∧ p ≤ st.max) ∧ st.min ∈ fp ∧ st.max ∈ fp := by
  obtain ⟨p, ps, hfp, hall⟩ := collectFinalPrices_cons M hne hrows
  obtain ⟨hb, hmin, hmax⟩ := min_max_of_finalPrices p ps
  exact ⟨p :: ps, _, hall, calculateStatistics_of_finalPrices exp sqrt M params p ps hfp,
    hb, hmin, hmax⟩

theorem calculateStatistics_min_max_witness :
    ([[100, 90], [100, 110], [100, 95]] : List (List ℝ)) ≠ [] ∧
    (∀ row ∈ ([[100, 90], [100, 110], [100, 95]] : List (List ℝ)), row ≠ []) ∧
    ∃ fp st, List.Forall₂ (fun row p => row.getLast? = some p)
        ([[100, 90], [100, 110], [100, 95]] : List (List ℝ)) fp ∧
      calculateStatistics Real.exp Real.sqrt [[100, 90], [100, 110], [100, 95]]
        { S0 := 100, mu := 0.05, sigma := 0.2, T := 1, numSteps := 1, numPaths := 3 }
        = .ok st ∧
      (∀ p ∈ fp, st.min ≤ p ∧ p ≤ st.max) ∧ st.min ∈ fp ∧ st.max ∈ fp :=
  ⟨by simp, by simp,
    calculateStatistics_min_max Real.exp Real.sqrt [[100, 90], [100, 110], [100, 95]]
      { S0 := 100, mu := 0.05, sigma := 0.2, T := 1, numSteps := 1, numPaths := 3 }
      (by simp) (by simp)⟩

/-- C16: in any arithmetic, for a non-empty matrix with non-empty rows, the
theoretical mean computed by `calculateStatistics` is `S0 * exp(mu * T)`; two
calls whose parameters agree in `S0`, `mu` and `T` compute the same theoretical
mean, whatever the matrices, `sigma`, the counts and the draws behind the
matrices are. -/
theorem calculateStatistics_theoreticalMean {α : Type} [Add α] [Sub α] [Mul α] [Div α]
    [OfScientific α] [IntCast α] [LT α] [DecidableRel (fun a b : α => a < b)]
    (exp sqrt : α → α) (M M2 : List (List α)) (params params2 : SimulationParams α)
    (hne : M ≠ []) (hrows : ∀ row ∈ M, row ≠ [])
    (hne2 : M2 ≠ []) (hrows2 : ∀ row ∈ M2, row ≠ [])
    (hS0 : params2.S0 = params.S0) (hmu : params2.mu = params.mu)
    (hT : params2.T = params.T) :
    ∃ st st2, calculateStatistics exp sqrt M params = .ok st ∧
      calculateStatistics exp sqrt M2 params2 = .ok st2 ∧
      st.theoreticalMean = params.S0 * exp (params.mu * params.T) ∧
      st2.theoreticalMean = st.theoreticalMean := by
  obtain ⟨p, ps, hfp, -⟩ := collectFinalPrices_cons M hne hrows
  obtain ⟨q, qs, hfq, -⟩ := collectFinalPrices_cons M2 hne2 hrows2
  refine ⟨_, _, calculateStatistics_of_finalPrices exp sqrt M params p ps hfp,
    calculateStatistics_of_finalPrices exp sqrt M2 params2 q qs hfq, rfl, ?_⟩
  show params2.S0 * exp (params2.mu * params2.T) = params.S0 * exp (params.mu * params.T)
  rw [hS0, hmu, hT]

theorem calculateStatistics_theoreticalMean_witness :
    ([[100, 90], [100, 110]] : List (List ℝ)) ≠ [] ∧
    ([[100, 120, 130]] : List (List ℝ)) ≠ [] ∧
    ∃ st st2, calculateStatistics Real.exp Real.sqrt [[100, 90], [100, 110]]
        { S0 := 100, mu := 0.05, sigma := 0.2, T := 1.0, numSteps := 1, numPaths := 2 }
        = .ok st ∧
      calculateStatistics Real.exp Real.sqrt [[100, 120, 130]]
        { S0 := 100, mu := 0.05, sigma := 0.7, T := 1.0, numSteps := 2, numPaths := 1 }
        = .ok st2 ∧
      st.theoreticalMean = 100 * Real.exp 0.05 ∧ st2.theoreticalMean = st.theoreticalMean := by
  obtain ⟨st, st2, h1, h2, h3, h4⟩ := calculateStatistics_theoreticalMean Real.exp Real.sqrt
    [[100, 90], [100, 110]] [[100, 120, 130]]
    { S0 := 100, mu := 0.05, sigma := 0.2, T := 1.0, numSteps := 1, numPaths := 2 }
    { S0 := 100, mu := 0.05, sigma := 0.7, T := 1.0, numSteps := 2, numPaths := 1 }
    (by simp) (by simp) (by simp) (by simp) rfl rfl rfl
  refine ⟨by simp, by simp, st, st2, h1, h2, ?_, h4⟩
  rw [h3]
  norm_num

theorem sum_sq_deviation_eq_zero (l : List ℝ) (m : ℝ) :
    (l.map (fun p => (p - m) ^ 2)).sum = 0 ↔ ∀ p ∈ l, p = m := by
  induction l with
  | nil => simp
  | cons p ps ih =>
    have hnn : 0 ≤ (ps.map (fun q => (q - m) ^ 2)).sum := by
      apply List.sum_nonneg
      intro x hx
      obtain ⟨q, -, rfl⟩ := List.mem_map.mp hx
      exact sq_nonneg _
    rw [List.map_cons, List.sum_cons, add_eq_zero_iff_of_nonneg (sq_nonneg _) hnn, ih]
    constructor
    · rintro ⟨h1, h2⟩ q hq
      rcases List.mem_cons.mp hq with h | h
      · rw [h]
        have := (pow_eq_zero_iff (two_ne_zero)).mp h1
        linarith
      · exact h2 q h
    · intro h
      refine ⟨?_, fun q hq => h q (List.mem_cons_of_mem _ hq)⟩
      rw [h p (List.mem_cons_self _ _)]
      ring

/-- C19: `calculateStatistics` sums over the rows of the matrix and divides by
`params.numPaths` whatever the number of rows is; for two rows with final price
`100` and `numPaths = 1` the computed mean is `200`, which is not the arithmetic
mean `100` of the final prices and lies outside `[min, max] = [100, 100]`. -/
theorem calculateStatistics_mean_outside_range :
    (∀ (exp sqrt : ℝ → ℝ) (M : List (List ℝ)) (params : SimulationParams ℝ),
      M ≠ [] → (∀ row ∈ M, row ≠ []) →
      ∃ fp st, List.Forall₂ (fun row p => row.getLast? = some p) M fp ∧
        calculateStatistics exp sqrt M params = .ok st ∧
        st.mean = fp.sum / ((params.numPaths : Int) : ℝ)) ∧
    (∃ st, calculateStatistics Real.exp Real.sqrt [[100], [100]]
        { S0 := 100, mu := 0.05, sigma := 0.2, T := 1, numSteps := 0, numPaths := 1 }
        = .ok st ∧
      st.mean = 200 ∧ st.mean ≠ (100 + 100) / 2 ∧ st.min = 100 ∧ st.max = 100 ∧
      ¬ (st.min ≤ st.mean ∧ st.mean ≤ st.max)) := by
  constructor
  · intro exp sqrt M params hne hrows
    obtain ⟨p, ps, hfp, hall⟩ := collectFinalPrices_cons M hne hrows
    exact ⟨p :: ps, _, hall, calculateStatistics_eq exp sqrt M params p ps hfp, rfl⟩
  · refine ⟨_, calculateStatistics_eq Real.exp Real.sqrt _ _ 100 [100] rfl, ?_, ?_, ?_, ?_, ?_⟩
    · norm_num
    · norm_num
    · simp [accumulate]
    · simp [accumulate]
    · simp [accumulate]

theorem calculateStatistics_mean_outside_range_witness :
    ([[100, 90], [100, 110]] : List (List ℝ)) ≠ [] ∧
    ∃ fp st, List.Forall₂ (fun row p => row.getLast? = some p)
        ([[100, 90], [100, 110]] : List (List ℝ)) fp ∧
      calculateStatistics Real.exp Real.sqrt [[100, 90], [100, 110]]
        { S0 := 100, mu := 0.05, sigma := 0.2, T := 1, numSteps := 1, numPaths := 5 }
        = .ok st ∧
      st.mean = fp.sum / (((5 : Int) : Int) : ℝ) :=
  ⟨by simp, calculateStatistics_mean_outside_range.1 Real.exp Real.sqrt
    [[100, 90], [100, 110]]
    { S0 := 100, mu := 0.05, sigma := 0.2, T := 1, numSteps := 1, numPaths := 5 }
    (by simp) (by simp)⟩

/-- C20: over exact real arithmetic, for a non-empty matrix with non-empty rows
whose row count equals `numPaths`, the variance `(sum of squares)/N - mean^2`
computed by `calculateStatistics` is `≥ 0`, and it is `0` exactly when all final
prices are equal; the standard deviation is the square root of this non-negative
number, and `min ≤ mean ≤ max`. -/
theorem calculateStatistics_variance_nonneg (exp sqrt : ℝ → ℝ) (M : List (List ℝ))
    (params : SimulationParams ℝ) (hne : M ≠ []) (hrows : ∀ row ∈ M, row ≠ [])
    (hN : params.numPaths = (M.length : Int)) :
    ∃ fp st, List.Forall₂ (fun row p => row.getLast? = some p) M fp ∧
      calculateStatistics exp sqrt M params = .ok st ∧
      0 ≤ st.variance ∧
      (st.variance = 0 ↔ ∀ p ∈ fp, ∀ q ∈ fp, p = q) ∧
      st.stdDev = sqrt st.variance ∧
      st.min ≤ st.mean ∧ st.mean ≤ st.max := by
  obtain ⟨p, ps, hfp, hall⟩ := collectFinalPrices_cons M hne hrows
  have hlen : M.length = (p :: ps).length := hall.length_eq
  have hcast : ((params.numPaths : Int) : ℝ) = ((p :: ps).length : ℝ) := by
    rw [hN, hlen]; norm_cast
  have hpos : (0 : ℝ) < ((p :: ps).length : ℝ) := by
    have : 0 < (p :: ps).length := Nat.succ_pos _
    exact_mod_cast this
  have hvar : ((p :: ps).map (fun q => q ^ 2)).sum / ((params.numPaths : Int) : ℝ)
      - ((p :: ps).sum / ((params.numPaths : Int) : ℝ)) ^ 2
      = ((p :: ps).map (fun q => (q - (p :: ps).sum / ((p :: ps).length : ℝ)) ^ 2)).sum
          / ((p :: ps).length : ℝ) := by
    rw [hcast, sum_sq_deviation]
    field_simp
    ring
  have hnn : 0 ≤ ((p :: ps).map
      (fun q => (q - (p :: ps).sum / ((p :: ps).length : ℝ)) ^ 2)).sum := by
    apply List.sum_nonneg
    intro x hx
    obtain ⟨q, -, rfl⟩ := List.mem_map.mp hx
    exact sq_nonneg _
  obtain ⟨hb, -, -⟩ := min_max_of_finalPrices p ps
  refine ⟨p :: ps, _, hall, calculateStatistics_eq exp sqrt M params p ps hfp,
    ?_, ?_, rfl, ?_, ?_⟩
  · show 0 ≤ _ / _ - (_ / _) ^ 2
    rw [hvar]
    exact div_nonneg hnn (le_of_lt hpos)
  · show _ / _ - (_ / _) ^ 2 = 0 ↔ _
    rw [hvar, div_eq_zero_iff, sum_sq_deviation_eq_zero]
    constructor
    · intro h a ha b hb2
      rcases h with h | h
      · rw [h a ha, h b hb2]
      · exact absurd h (ne_of_gt hpos)
    · intro h
      left
      have hrep : p :: ps = List.replicate (p :: ps).length p :=
        List.eq_replicate_iff.mpr ⟨rfl, fun b hb2 => h b hb2 p (List.mem_cons_self _ _)⟩
      have hsum : (p :: ps).sum = ((p :: ps).length : ℝ) * p := by
        conv_lhs => rw [hrep]
        rw [List.sum_replicate, nsmul_eq_mul]
      intro a ha
      rw [hsum, h a ha p (List.mem_cons_self _ _)]
      field_simp
  · show _ ≤ _ / _
    rw [hcast, le_div_iff₀ hpos]
    have := List.card_nsmul_le_sum (p :: ps) _ (fun q hq => (hb q hq).1)
    rw [nsmul_eq_mul] at this
    linarith
  · show _ / _ ≤ _
    rw [hcast, div_le_iff₀ hpos]
    have := List.sum_le_card_nsmul (p :: ps) _ (fun q hq => (hb q hq).2)
    rw [nsmul_eq_mul] at this
    linarith

theorem calculateStatistics_variance_nonneg_witness :
    ([[100, 90], [100, 110]] : List (List ℝ)) ≠ [] ∧
    (∀ row ∈ ([[100, 90], [100, 110]] : List (List ℝ)), row ≠ []) ∧
    ∃ fp st, List.Forall₂ (fun row p => row.getLast? = some p)
        ([[100, 90], [100, 110]] : List (List ℝ)) fp ∧
      calculateStatistics Real.exp Real.sqrt [[100, 90], [100, 110]]
        { S0 := 100, mu := 0.05, sigma := 0.2, T := 1, numSteps := 1, numPaths := 2 }
        = .ok st ∧
      0 ≤ st.variance ∧
      (st.variance = 0 ↔ ∀ p ∈ fp, ∀ q ∈ fp, p = q) ∧
      st.stdDev = Real.sqrt st.variance ∧
      st.min ≤ st.mean ∧ st.mean ≤ st.max :=
  ⟨by simp, by simp,
    calculateStatistics_variance_nonneg Real.exp Real.sqrt [[100, 90], [100, 110]]
      { S0 := 100, mu := 0.05, sigma := 0.2, T := 1, numSteps := 1, numPaths := 2 }
      (by simp) (by simp) rfl⟩

/-- C14: on an empty matrix `calculateStatistics` has no check: it evaluates
`finalPrices[0]` on an empty vector, an access outside the vector, and the same
kind of access happens through `back()` for a matrix with an empty row. -/
theorem calculateStatistics_empty {α : Type} [Add α] [Sub α] [Mul α] [Div α]
    [OfScientific α] [IntCast α] [LT α] [DecidableRel (fun a b : α => a < b)]
    (exp sqrt : α → α) (params : SimulationParams α) :
    calculateStatistics exp sqrt [] params = .error Fault.outOfBounds ∧
    calculateStatistics exp sqrt [[]] params = .error Fault.outOfBounds :=
  ⟨rfl, rfl⟩

theorem OrNaN.num_add {α : Type} [Add α] (x y : α) :
    (OrNaN.num x + OrNaN.num y : OrNaN α) = OrNaN.num (x + y) := rfl

theorem OrNaN.num_sub {α : Type} [Sub α] (x y : α) :
    (OrNaN.num x - OrNaN.num y : OrNaN α) = OrNaN.num (x - y) := rfl

theorem OrNaN.num_mul {α : Type} [Mul α] (x y : α) :
    (OrNaN.num x * OrNaN.num y : OrNaN α) = OrNaN.num (x * y) := rfl

theorem OrNaN.num_div {α : Type} [Div α] (x y : α) :
    (OrNaN.num x / OrNaN.num y : OrNaN α) = OrNaN.num (x / y) := rfl

theorem OrNaN.num_lt {α : Type} [LT α] (x y : α) :
    (OrNaN.num x < OrNaN.num y) ↔ x < y := Iff.rfl

theorem OrNaN.intCast_eq {α : Type} [IntCast α] (n : Int) :
    ((n : Int) : OrNaN α) = OrNaN.num ((n : Int) : α) := rfl

theorem OrNaN.zero_lit {α : Type} [OfScientific α] :
    (0.0 : OrNaN α) = OrNaN.num (0.0 : α) := rfl

/-- C11, counterexample: two rows with final prices `10` and `20` and
`numPaths = 1` give the variance `-400`; the standard deviation is the square
root of this negative number, NaN, whereas `sqrt(max(variance, 0))` is `0`. -/
theorem calculateStatistics_sqrt_of_negative :
    ∃ st, calculateStatistics (OrNaN.lift Real.exp) (OrNaN.sqrt Real.sqrt)
        [[OrNaN.num 10], [OrNaN.num 20]]
        { S0 := OrNaN.num 100, mu := OrNaN.num 0.05, sigma := OrNaN.num 0.2,
          T := OrNaN.num 1, numSteps := 0, numPaths := 1 } = .ok st ∧
      st.variance = OrNaN.num (-400) ∧ st.stdDev = OrNaN.nan ∧
      OrNaN.sqrt Real.sqrt (OrNaN.num (max (-400) 0)) = OrNaN.num 0 := by
  refine ⟨_, calculateStatistics_of_finalPrices _ _ _ _ (OrNaN.num 10) [OrNaN.num 20] rfl,
    ?_, ?_, ?_⟩
  · simp only [List.foldl, accumulate, OrNaN.zero_lit, OrNaN.num_add, OrNaN.num_mul,
      OrNaN.num_div, OrNaN.num_sub, OrNaN.intCast_eq]
    norm_num
  · simp only [List.foldl, accumulate, OrNaN.zero_lit, OrNaN.num_add, OrNaN.num_mul,
      OrNaN.num_div, OrNaN.num_sub, OrNaN.intCast_eq]
    norm_num [OrNaN.sqrt]
  · norm_num [OrNaN.sqrt]

/-- C11, amended: for a non-empty matrix with non-empty rows the standard
deviation computed by `calculateStatistics` is `sqrt(variance)`, with no guard,
whatever `sqrt` does on negative numbers; it equals `sqrt(max(variance, 0))`
whenever the computed variance is `≥ 0`. -/
theorem calculateStatistics_stdDev (exp sqrt : ℝ → ℝ) (M : List (List ℝ))
    (params : SimulationParams ℝ) (hne : M ≠ []) (hrows : ∀ row ∈ M, row ≠ []) :
    ∃ st, calculateStatistics exp sqrt M params = .ok st ∧
      st.stdDev = sqrt st.variance ∧
      (0 ≤ st.variance → st.stdDev = sqrt (max st.variance 0)) := by
  obtain ⟨p, ps, hfp, -⟩ := collectFinalPrices_cons M hne hrows
  refine ⟨_, calculateStatistics_of_finalPrices exp sqrt M params p ps hfp, rfl, ?_⟩
  intro h
  rw [max_eq_left h]

theorem calculateStatistics_stdDev_witness :
    ([[100, 90], [100, 110]] : List (List ℝ)) ≠ [] ∧
    (∀ row ∈ ([[100, 90], [100, 110]] : List (List ℝ)), row ≠ []) ∧
    ∃ st, calculateStatistics Real.exp Real.sqrt [[100, 90], [100, 110]]
        { S0 := 100, mu := 0.05, sigma := 0.2, T := 1, numSteps := 1, numPaths := 2 }
        = .ok st ∧
      st.stdDev = Real.sqrt st.variance ∧
      (0 ≤ st.variance → st.stdDev = Real.sqrt (max st.variance 0)) :=
  ⟨by simp, by simp,
    calculateStatistics_stdDev Real.exp Real.sqrt [[100, 90], [100, 110]]
      { S0 := 100, mu := 0.05, sigma := 0.2, T := 1, numSteps := 1, numPaths := 2 }
      (by simp) (by simp)⟩

/-! ## The sampling loop on 64-bit registers -/

/-- One iteration on unwrapped registers: from the state of iteration `k` to
that of iteration `k + 1`, as long as `k + 1` fits a `long long`. -/
theorem piMachineStep_count {α : Type} [Add α] [Mul α] [OfScientific α] [LE α]
    [DecidableRel (fun a b : α => a ≤ b)] (draws : Nat → α) (k : Nat)
    (hk : k + 1 < 2 ^ 63) :
    piMachineStep draws
        { i := (k : Int), pointInCircle := (countInside draws k : Int), gen := 2 * k }
      = { i := ((k + 1 : Nat) : Int), pointInCircle := (countInside draws (k + 1) : Int),
          gen := 2 * (k + 1) } := by
  have hle := countInside_le draws k
  have hw : wrap64 ((countInside draws k : Int) + 1) = (countInside draws k : Int) + 1 :=
    wrap64_of_range _ (by omega) (by omega)
  have hi : wrap64 ((k : Int) + 1) = ((k + 1 : Nat) : Int) := by
    rw [wrap64_of_range _ (by omega) (by omega)]
    omega
  unfold piMachineStep estimatePiBody
  rw [countInside_succ]
  by_cases h : draws (2 * k) * draws (2 * k) + draws (2 * k + 1) * draws (2 * k + 1)
      ≤ (1.0 : α)
  · simp only [h, if_true, hw, hi]
    congr 1
  · simp only [h, if_false, hi]
    congr 1

theorem piMachine_iterate {α : Type} [Add α] [Mul α] [OfScientific α] [LE α]
    [DecidableRel (fun a b : α => a ≤ b)] (draws : Nat → α) (k : Nat) (hk : k < 2 ^ 63) :
    (piMachineStep draws)^[k] { i := 0, pointInCircle := 0, gen := 0 }
      = { i := (k : Int), pointInCircle := (countInside draws k : Int), gen := 2 * k } := by
  induction k with
  | zero => rfl
  | succ j ih =>
    rw [Function.iterate_succ_apply', ih (by omega), piMachineStep_count draws j hk]

theorem piMachineLoop_from {α : Type} [Add α] [Mul α] [OfScientific α] [LE α]
    [DecidableRel (fun a b : α => a ≤ b)] (draws : Nat → α) (n : Nat) (hn : n < 2 ^ 63)
    (d k fuel : Nat) (hkd : k + d = n) (hfuel : d ≤ fuel) :
    piMachineLoop draws (n : Int) fuel
        { i := (k : Int), pointInCircle := (countInside draws k : Int), gen := 2 * k }
      = some { i := (n : Int), pointInCircle := (countInside draws n : Int), gen := 2 * n } := by
  induction d generalizing k fuel with
  | zero =>
    have hk : k = n := by omega
    subst hk
    cases fuel with
    | zero => simp [piMachineLoop]
    | succ f => simp [piMachineLoop]
  | succ e ih =>
    cases fuel with
    | zero => omega
    | succ f =>
      have hlt : ((k : Int) < (n : Int)) := by omega
      unfold piMachineLoop
      simp only [hlt, if_true]
      rw [piMachineStep_count draws k (by omega)]
      exact ih (k + 1) f (by omega) (by omega)

/-- C17: for `0 < numPoints < 2^63`, at every iteration `k ≤ numPoints` the
registers hold `i = k` and `pointInCircle = countInside draws k`, the count over
unbounded integers, with `0 ≤ pointInCircle ≤ i ≤ numPoints`, so no increment
wraps; with enough fuel the loop stops at `i = numPoints`, and the loop model of
`estimatePi` ends with the same counter. -/
theorem estimatePi_counter_no_wrap {α : Type} [Add α] [Mul α] [OfScientific α] [LE α]
    [DecidableRel (fun a b : α => a ≤ b)] (draws : Nat → α) (numPoints : Int)
    (hpos : 0 < numPoints) (hlt : numPoints < 2 ^ 63) :
    (∀ k : Nat, (k : Int) ≤ numPoints →
      ∃ s, (piMachineStep draws)^[k] { i := 0, pointInCircle := 0, gen := 0 } = s ∧
        s.pointInCircle = (countInside draws k : Int) ∧
        0 ≤ s.pointInCircle ∧ s.pointInCircle ≤ s.i ∧ s.i ≤ numPoints ∧ s.i = (k : Int) ∧
        (s.i < numPoints → wrap64 (s.i + 1) = s.i + 1 ∧
          wrap64 (s.pointInCircle + 1) = s.pointInCircle + 1)) ∧
    (∀ fuel : Nat, numPoints.toNat ≤ fuel →
      piMachineLoop draws numPoints fuel { i := 0, pointInCircle := 0, gen := 0 }
        = some { i := numPoints, pointInCircle := (countInside draws numPoints.toNat : Int),
                 gen := 2 * numPoints.toNat }) ∧
    forLoop numPoints.toNat (fun _ s => (pure (estimatePiBody draws s) : Except Fault PiState))
        { pointInCircle := 0, gen := 0 }
      = .ok { pointInCircle := (countInside draws numPoints.toNat : Int),
              gen := 2 * numPoints.toNat } := by
  refine ⟨?_, ?_, estimatePi_loop draws numPoints.toNat (by omega)⟩
  · intro k hk
    have hle := countInside_le draws k
    refine ⟨_, piMachine_iterate draws k (by omega), rfl, ?_, ?_, hk, rfl, ?_⟩
    · show (0 : Int) ≤ (countInside draws k : Int)
      omega
    · show (countInside draws k : Int) ≤ (k : Int)
      omega
    · intro hlt2
      have hlt3 : (k : Int) < numPoints := hlt2
      exact ⟨wrap64_of_range _ (by show (0 : Int) ≤ (k : Int) + 1; omega)
          (by show (k : Int) + 1 < 2 ^ 63; omega),
        wrap64_of_range _ (by show (0 : Int) ≤ (countInside draws k : Int) + 1; omega)
          (by show (countInside draws k : Int) + 1 < 2 ^ 63; omega)⟩
  · intro fuel hfuel
    have hn : ((numPoints.toNat : Nat) : Int) = numPoints := Int.toNat_of_nonneg (le_of_lt hpos)
    have h := piMachineLoop_from draws numPoints.toNat (by omega) numPoints.toNat 0 fuel
      (by omega) hfuel
    rw [hn] at h
    exact h

theorem estimatePi_counter_no_wrap_witness :
    (0 : Int) < 10000000 ∧ (10000000 : Int) < 2 ^ 63 ∧
    piMachineLoop (fun k => (k : ℝ) / 8) 10000000 10000000
        { i := 0, pointInCircle := 0, gen := 0 }
      = some { i := 10000000,
               pointInCircle := (countInside (fun k => (k : ℝ) / 8) (10000000 : Int).toNat : Int),
               gen := 2 * (10000000 : Int).toNat } :=
  ⟨by decide, by decide,
    (estimatePi_counter_no_wrap (fun k => (k : ℝ) / 8) 10000000 (by decide) (by decide)).2.1
      10000000 (by decide)⟩

theorem digitChar_no_separator (m : Nat) (hm : m < 10) :
    Nat.digitChar m ≠ ',' ∧ Nat.digitChar m ≠ '\n' := by
  revert m
  decide

theorem toDigitsCore_no_separator (fuel n : Nat) (acc : List Char)
    (hacc : ∀ c ∈ acc, c ≠ ',' ∧ c ≠ '\n') :
    ∀ c ∈ Nat.toDigitsCore 10 fuel n acc, c ≠ ',' ∧ c ≠ '\n' := by
  induction fuel generalizing n acc with
  | zero => exact hacc
  | succ f ih =>
    have hd := digitChar_no_separator (n % 10) (Nat.mod_lt _ (by decide))
    have hacc2 : ∀ c ∈ Nat.digitChar (n % 10) :: acc, c ≠ ',' ∧ c ≠ '\n' := by
      intro c hc
      rcases List.mem_cons.mp hc with h | h
      · rw [h]; exact hd
      · exact hacc c h
    unfold Nat.toDigitsCore
    by_cases h : n / 10 = 0
    · simp only [h, if_true]
      exact hacc2
    · simp only [h, if_false]
      exact ih (n / 10) _ hacc2

/-- The decimal digits of a number contain neither a comma nor a newline. -/
theorem toDigits_no_separator (n : Nat) :
    ∀ c ∈ Nat.toDigits 10 n, c ≠ ',' ∧ c ≠ '\n' :=
  toDigitsCore_no_separator (n + 1) n [] (fun c hc => absurd hc (List.not_mem_nil c))

theorem intercalate_cons_cons (c : Char) (x y : List Char) (ys : List (List Char)) :
    [c].intercalate (x :: y :: ys) = x ++ c :: [c].intercalate (y :: ys) := by
  simp [List.intercalate, List.intersperse]

theorem intercalate_single (c : Char) (x : List Char) : [c].intercalate [x] = x := by
  simp [List.intercalate, List.intersperse]

/-- A line written field by field, every field preceded by a comma, is the
index and the fields joined by commas. -/
theorem fields_eq_intercalate {α : Type} (render : α → List Char) (pre : List Char)
    (row : List α) :
    pre ++ row.flatMap (fun x => ',' :: render x)
      = [','].intercalate (pre :: row.map render) := by
  induction row generalizing pre with
  | nil => simp [intercalate_single]
  | cons x xs ih =>
    rw [List.map_cons, intercalate_cons_cons, ← ih (render x), List.flatMap_cons]
    simp

/-- Lines terminated by newlines are the lines and a last empty piece joined by
newlines. -/
theorem lines_eq_intercalate (lines : List (List Char)) :
    lines.flatMap (fun line => line ++ ['\n']) = ['\n'].intercalate (lines ++ [[]]) := by
  induction lines with
  | nil => simp [intercalate_single]
  | cons l ls ih =>
    rw [List.flatMap_cons, ih]
    cases ls with
    | nil => simp [List.intercalate, List.intersperse]
    | cons m ms =>
      show l ++ ['\n'] ++ ['\n'].intercalate (m :: (ms ++ [[]]))
        = ['\n'].intercalate (l :: m :: (ms ++ [[]]))
      rw [intercalate_cons_cons]
      simp

theorem csvLines_append {α : Type} (render : α → List Char) (first : Nat)
    (l : List (List α)) (row : List α) :
    csvLines render first (l ++ [row])
      = csvLines render first l
        ++ [[','].intercalate (Nat.toDigits 10 (first + l.length + 1) :: row.map render)] := by
  induction l generalizing first with
  | nil => simp [csvLines]
  | cons r rs ih =>
    have h : first + 1 + rs.length + 1 = first + (rs.length + 1) + 1 := by omega
    show _ :: csvLines render (first + 1) (rs ++ [row]) = _
    rw [ih (first + 1), h]
    rfl

theorem csvLines_length {α : Type} (render : α → List Char) (first : Nat)
    (M : List (List α)) : (csvLines render first M).length = M.length := by
  induction M generalizing first with
  | nil => rfl
  | cons r rs ih => simp [csvLines, ih]

theorem csvLines_getElem? {α : Type} (render : α → List Char) (first : Nat)
    (M : List (List α)) (i : Nat) (row : List α) (h : M[i]? = some row) :
    (csvLines render first M)[i]?
      = some ([','].intercalate (Nat.toDigits 10 (first + i + 1) :: row.map render)) := by
  induction M generalizing first i with
  | nil => simp at h
  | cons r rs ih =>
    cases i with
    | zero =>
      simp only [List.getElem?_cons_zero, Option.some.injEq] at h
      simp [csvLines, h]
    | succ k =>
      simp only [List.getElem?_cons_succ] at h
      simp only [csvLines, List.getElem?_cons_succ]
      rw [ih (first + 1) k h]
      have h2 : first + 1 + k + 1 = first + (k + 1) + 1 := by omega
      rw [h2]

/-- The inner loop of `saveToCSV` on a row of the matrix appends every entry of
the row, each preceded by a comma. -/
theorem saveToCSV_inner {α : Type} (render : α → List Char) (M : List (List α))
    (i : Nat) (row : List α) (hrow : M[i]? = some row) (out : List Char) :
    forLoop row.length (fun j out => writeField render M i (j : Int) out) out
      = .ok (out ++ row.flatMap (fun x => ',' :: render x)) := by
  obtain ⟨t, ht, hI⟩ := forLoop_inv
    (fun k (t : List Char) => t = out ++ (row.take k).flatMap (fun x => ',' :: render x))
    row.length (fun j out => writeField render M i (j : Int) out) out
    (by simp)
    (by
      intro k hk t ht
      have hget : row[k]? = some row[k] := List.getElem?_eq_getElem hk
      have hent : entry M i k = some row[k] := by
        unfold entry
        rw [hrow]
        exact hget
      refine ⟨t ++ ',' :: render row[k], ?_, ?_⟩
      · show writeField render M i (k : Int) t = _
        unfold writeField
        rw [if_neg (by omega), Int.toNat_ofNat, readCell_of_entry hent]
        rfl
      · show t ++ ',' :: render row[k] = out ++ (row.take (k + 1)).flatMap _
        rw [ht, List.take_succ, hget, List.flatMap_append]
        simp)
  rw [ht, hI, List.take_length]

/-- A line of `saveToCSV` for a row whose length is `numSteps + 1`, when
`numSteps + 1` is in the `int` range. -/
theorem writeLine_eq {α : Type} (render : α → List Char) (M : List (List α))
    (params : SimulationParams α) (hmax : params.numSteps < 2 ^ 31 - 1) (i : Nat)
    (row : List α) (hrow : M[i]? = some row)
    (hlen : (row.length : Int) = params.numSteps + 1) (out : List Char) :
    writeLine render M params i out
      = .ok (out ++ Nat.toDigits 10 (i + 1) ++ row.flatMap (fun x => ',' :: render x)
          ++ ['\n']) := by
  have hcount : (params.numSteps + 1).toNat = row.length := by omega
  have hexit : ¬ (0 ≤ params.numSteps ∧ wrap32 (params.numSteps + 1) ≤ params.numSteps) := by
    intro h
    have hw := wrap32_of_range (params.numSteps + 1) (by omega) (by omega)
    omega
  unfold writeLine
  dsimp only
  rw [hcount, saveToCSV_inner render M i row hrow]
  simp only [bind, Except.bind, if_neg hexit, pure, Except.pure]

/-- A line of `saveToCSV` at `numSteps = INT_MAX`: after the field `j = INT_MAX`
the index wraps to `INT_MIN` and the next access is outside the row. -/
theorem writeLine_overflow {α : Type} (render : α → List Char) (M : List (List α))
    (params : SimulationParams α) (hmax : params.numSteps = 2 ^ 31 - 1) (i : Nat)
    (row : List α) (hrow : M[i]? = some row)
    (hlen : (row.length : Int) = params.numSteps + 1) (out : List Char) :
    writeLine render M params i out = .error Fault.outOfBounds := by
  have hcount : (params.numSteps + 1).toNat = row.length := by omega
  have hw : wrap32 (params.numSteps + 1) = -2 ^ 31 := by
    rw [hmax]
    decide
  have hcont : 0 ≤ params.numSteps ∧ wrap32 (params.numSteps + 1) ≤ params.numSteps := by
    rw [hw, hmax]
    decide
  have hwf : ∀ t : List Char, writeField render M i (wrap32 (params.numSteps + 1)) t
      = .error Fault.outOfBounds := by
    intro t
    unfold writeField
    rw [hw, if_pos (by decide)]
  unfold writeLine
  dsimp only
  rw [hcount, saveToCSV_inner render M i row hrow]
  simp only [bind, Except.bind, if_pos hcont, hwf]

theorem forLoop_first_fault {σ : Type} (n : Nat) (body : Nat → σ → Except Fault σ) (s : σ)
    (e : Fault) (h : body 0 s = .error e) : forLoop (n + 1) body s = .error e := by
  unfold forLoop
  rw [List.range_succ_eq_map, List.foldlM_cons, h]
  rfl

/-- At `numSteps = INT_MAX`, on a matrix of `numPaths > 0` rows by `numSteps + 1`
columns, `saveToCSV` fails in its first line. -/
theorem saveToCSV_overflow {α : Type} (render : α → List Char) (M : List (List α))
    (params : SimulationParams α) (hmax : params.numSteps = 2 ^ 31 - 1)
    (hP : 0 < params.numPaths) (hrowsN : (M.length : Int) = params.numPaths)
    (hcols : ∀ row ∈ M, (row.length : Int) = params.numSteps + 1) :
    saveToCSV render true M params = .error Fault.outOfBounds := by
  have hpos : 0 < M.length := by omega
  have hN : params.numPaths.toNat = (M.length - 1) + 1 := by omega
  have hget : M[0]? = some M[0] := List.getElem?_eq_getElem hpos
  have hline := writeLine_overflow render M params hmax 0 M[0] hget
    (hcols M[0] (List.getElem_mem hpos)) []
  unfold saveToCSV
  rw [hN, forLoop_first_fault _ _ _ _ hline]
  rfl

/-- On a matrix whose dimensions are the counts of `params`, with `numSteps + 1`
in the `int` range, `saveToCSV` with a destination that opens writes the text
of the specification. -/
theorem saveToCSV_eq_csvText {α : Type} (render : α → List Char) (M : List (List α))
    (params : SimulationParams α) (hmax : params.numSteps < 2 ^ 31 - 1)
    (hrowsN : (M.length : Int) = params.numPaths)
    (hcols : ∀ row ∈ M, (row.length : Int) = params.numSteps + 1) :
    saveToCSV render true M params = .ok (some (csvText render M)) := by
  have hN : params.numPaths.toNat = M.length := by omega
  obtain ⟨t, ht, hI⟩ := forLoop_inv
    (fun k (t : List Char) =>
      t = (csvLines render 0 (M.take k)).flatMap (fun line => line ++ ['\n']))
    M.length (writeLine render M params) []
    (by simp [csvLines])
    (by
      intro k hk t ht
      have hget : M[k]? = some M[k] := List.getElem?_eq_getElem hk
      refine ⟨t ++ Nat.toDigits 10 (k + 1) ++ (M[k]).flatMap (fun x => ',' :: render x)
        ++ ['\n'], writeLine_eq render M params hmax k M[k] hget
          (hcols M[k] (List.getElem_mem hk)) t, ?_⟩
      show _ = (csvLines render 0 (M.take (k + 1))).flatMap _
      rw [ht, List.take_succ, hget, Option.toList, csvLines_append, List.flatMap_append,
        List.flatMap_singleton, List.length_take, Nat.min_eq_left (le_of_lt hk),
        Nat.zero_add, ← fields_eq_intercalate]
      simp)
  unfold saveToCSV
  rw [hN, ht, hI, List.take_length]
  rfl

/-- Splitting the text of the specification on newlines and commas and dropping
the index gives back the rendered fields, when no rendered field contains a
comma or a newline. -/
theorem parseCSV_csvText {α : Type} (render : α → List Char) (M : List (List α))
    (hsep : ∀ row ∈ M, ∀ x ∈ row, ',' ∉ render x ∧ '\n' ∉ render x) :
    parseCSV (csvText render M) = M.map (fun row => row.map render) := by
  have hlines : ∀ (first : Nat) (L : List (List α)), (∀ row ∈ L, row ∈ M) →
      (∀ line ∈ csvLines render first L, '\n' ∉ line) ∧
      (csvLines render first L).map (fun line => (line.splitOn ',').tail)
        = L.map (fun row => row.map render) := by
    intro first L
    induction L generalizing first with
    | nil => intro _; exact ⟨fun l hl => absurd hl (List.not_mem_nil l), rfl⟩
    | cons row rest ih =>
      intro hsub
      obtain ⟨h1, h2⟩ := ih (first + 1) (fun r hr => hsub r (List.mem_cons_of_mem _ hr))
      have hrowM := hsep row (hsub row (List.mem_cons_self _ _))
      constructor
      · intro line hline
        rcases List.mem_cons.mp hline with h | h
        · rw [h, ← fields_eq_intercalate]
          intro hmem
          rcases List.mem_append.mp hmem with hd | hf
          · exact (toDigits_no_separator _ _ hd).2 rfl
          · obtain ⟨x, hx, hc⟩ := List.mem_flatMap.mp hf
            rcases List.mem_cons.mp hc with hcomma | hr
            · exact absurd hcomma (by decide)
            · exact (hrowM x hx).2 hr
        · exact h1 line h
      · show (([','].intercalate _).splitOn ',').tail :: _ = _
        rw [h2, List.splitOn_intercalate _ ',' _ (List.cons_ne_nil _ _)]
        · rfl
        · intro l hl
          rcases List.mem_cons.mp hl with h | h
          · rw [h]
            exact fun hmem => (toDigits_no_separator _ _ hmem).1 rfl
          · obtain ⟨x, hx, rfl⟩ := List.mem_map.mp h
            exact (hrowM x hx).1
  obtain ⟨hnl, hmap⟩ := hlines 0 M (fun r hr => hr)
  unfold parseCSV csvText
  rw [lines_eq_intercalate, List.splitOn_intercalate _ '\n' _ (by simp), List.dropLast_concat,
    hmap]
  intro l hl
  rcases List.mem_append.mp hl with h | h
  · exact hnl l h
  · rw [List.mem_singleton.mp h]
    exact List.not_mem_nil _

/-- C15, counterexample: a matrix of one row by `numSteps + 1 = 2147483648`
columns with `numPaths = 1` and `numSteps = 2147483647`, and a destination that
opens: after the field `j = 2147483647` the `int` index of the field loop
overflows and the next access is outside the row, so no file of one line is
written. -/
theorem saveToCSV_format_intMax :
    saveToCSV (Nat.toDigits 10) true [List.replicate 2147483648 100]
        { S0 := 100, mu := 0, sigma := 0, T := 1, numSteps := 2147483647, numPaths := 1 }
      = .error Fault.outOfBounds :=
  saveToCSV_overflow _ _ _ (by decide) (by decide) rfl (by
    intro row hrow
    rw [List.mem_singleton.mp hrow, List.length_replicate]
    rfl)

/-- C15, amended: for `numSteps < 2^31 - 1`, a matrix of `numPaths` rows by
`numSteps + 1` columns and a
destination that opens, `saveToCSV` writes exactly `numPaths` newline-terminated
lines, line `i` (0-based) being the index `i + 1` followed by the `numSteps + 1`
renderings of `matrix[i][j]` in column order, all joined by commas.  When no
rendering contains a comma or a newline, no line contains a newline, splitting
the text on newlines and commas and dropping the index gives back the
renderings, and reading them with a reader that inverts the rendering up to a
precision `R` gives a matrix whose entries match the originals up to `R`. -/
theorem saveToCSV_format {α : Type} (render : α → List Char) (M : List (List α))
    (params : SimulationParams α) (hmax : params.numSteps < 2 ^ 31 - 1)
    (hrowsN : (M.length : Int) = params.numPaths)
    (hcols : ∀ row ∈ M, (row.length : Int) = params.numSteps + 1) :
    ∃ (text : List Char) (lines : List (List Char)),
      saveToCSV render true M params = .ok (some text) ∧
      text = lines.flatMap (fun line => line ++ ['\n']) ∧
      (lines.length : Int) = params.numPaths ∧
      (∀ i row, M[i]? = some row →
        lines[i]? = some ([','].intercalate (Nat.toDigits 10 (i + 1) :: row.map render)) ∧
        ((row.map render).length : Int) = params.numSteps + 1) ∧
      ((∀ row ∈ M, ∀ x ∈ row, ',' ∉ render x ∧ '\n' ∉ render x) →
        (∀ line ∈ lines, '\n' ∉ line) ∧
        parseCSV text = M.map (fun row => row.map render) ∧
        ∀ (read : List Char → α) (R : α → α → Prop),
          (∀ row ∈ M, ∀ x ∈ row, R (read (render x)) x) →
          List.Forall₂ (List.Forall₂ (fun s x => R (read s) x)) (parseCSV text) M) := by
  refine ⟨csvText render M, csvLines render 0 M,
    saveToCSV_eq_csvText render M params hmax hrowsN hcols, rfl, ?_, ?_, ?_⟩
  · rw [csvLines_length, hrowsN]
  · intro i row hrow
    have h1 := csvLines_getElem? render 0 M i row hrow
    rw [Nat.zero_add] at h1
    refine ⟨h1, ?_⟩
    rw [List.length_map]
    exact hcols row (List.getElem?_mem hrow)
  · intro hsep
    have hparse := parseCSV_csvText render M hsep
    refine ⟨?_, hparse, ?_⟩
    · intro line hline hmem
      obtain ⟨i, hi, hget⟩ := List.getElem_of_mem hline
      have hiM : i < M.length := by rw [← csvLines_length render 0 M]; exact hi
      have h1 := csvLines_getElem? render 0 M i M[i] (List.getElem?_eq_getElem hiM)
      rw [List.getElem?_eq_getElem hi, hget, Nat.zero_add] at h1
      cases h1
      rw [← fields_eq_intercalate] at hmem
      rcases List.mem_append.mp hmem with hd | hf
      · exact (toDigits_no_separator _ _ hd).2 rfl
      · obtain ⟨x, hx, hc⟩ := List.mem_flatMap.mp hf
        rcases List.mem_cons.mp hc with hcomma | hr
        · exact absurd hcomma (by decide)
        · exact (hsep M[i] (List.getElem_mem hiM) x hx).2 hr
    · intro read R hR
      rw [hparse, List.forall₂_map_left_iff, List.forall₂_same]
      intro row hrow
      rw [List.forall₂_map_left_iff, List.forall₂_same]
      exact hR row hrow

theorem saveToCSV_format_witness :
    ∃ (text : List Char) (lines : List (List Char)),
      saveToCSV (Nat.toDigits 10) true [[100, 95], [100, 110]]
        { S0 := 100, mu := 0, sigma := 0, T := 1, numSteps := 1, numPaths := 2 }
        = .ok (some text) ∧
      text = lines.flatMap (fun line => line ++ ['\n']) ∧
      (lines.length : Int) = 2 ∧
      (∀ line ∈ lines, '\n' ∉ line) ∧
      parseCSV text = ([[100, 95], [100, 110]] : List (List Nat)).map
        (fun row => row.map (Nat.toDigits 10)) ∧
      List.Forall₂ (List.Forall₂ (fun s x => readDecimal s = x))
        (parseCSV text) [[100, 95], [100, 110]] := by
  obtain ⟨text, lines, h1, h2, h3, -, h5⟩ := saveToCSV_format (Nat.toDigits 10)
    [[100, 95], [100, 110]]
    { S0 := 100, mu := 0, sigma := 0, T := 1, numSteps := 1, numPaths := 2 } (by decide)
    rfl (by simp)
  obtain ⟨h6, h7, h8⟩ := h5 (fun _ _ x _ => ⟨fun h => (toDigits_no_separator x _ h).1 rfl,
    fun h => (toDigits_no_separator x _ h).2 rfl⟩)
  exact ⟨text, lines, h1, h2, h3, h6, h7, h8 readDecimal Eq
    (by simp [readDecimal, Nat.toDigits, Nat.toDigitsCore, Nat.digitChar])⟩

/-! ## Rounding to binary64 -/

theorem roundEven_eq {α : Type} [LinearOrderedField α] [FloorRing α] (x : α) (k : Int)
    (h : abs (x - (k : α)) < 1 / 2 ∨ (abs (x - (k : α)) = 1 / 2 ∧ k % 2 = 0)) :
    roundEven x = k := by
  unfold roundEven
  rcases h with h | ⟨h, hk⟩
  · rw [abs_lt] at h
    rcases le_or_lt (k : α) x with hx | hx
    · have hf : Int.floor x = k := Int.floor_eq_iff.mpr ⟨hx, by linarith⟩
      rw [hf, if_pos (by linarith)]
    · have hf : Int.floor x = k - 1 :=
        Int.floor_eq_iff.mpr ⟨by push_cast; linarith, by push_cast; linarith⟩
      rw [hf, if_neg (by push_cast; linarith), if_pos (by push_cast; linarith)]
      omega
  · rcases abs_eq (by norm_num : (0 : α) ≤ 1 / 2) |>.mp h with h | h
    · have hf : Int.floor x = k := Int.floor_eq_iff.mpr ⟨by linarith, by linarith⟩
      rw [hf, if_neg (by linarith), if_neg (by linarith), if_pos hk]
    · have hf : Int.floor x = k - 1 :=
        Int.floor_eq_iff.mpr ⟨by push_cast; linarith, by push_cast; linarith⟩
      rw [hf, if_neg (by push_cast; linarith), if_neg (by push_cast; linarith),
        if_neg (by omega)]
      omega

theorem ulpExponent_eq {α : Type} [LinearOrderedField α] [FloorRing α] (x : α) (e : Int)
    (h1 : (2 : α) ^ e ≤ abs x) (h2 : abs x < (2 : α) ^ (e + 1)) :
    ulpExponent x = max (e - 52) (-1074) := by
  have hpos : 0 < abs x := lt_of_lt_of_le (zpow_pos (by norm_num) e) h1
  have hlog : Int.log 2 (abs x) = e := by
    apply le_antisymm
    · have := (Int.lt_zpow_iff_log_lt (by norm_num : 1 < 2) hpos).mp
        (by exact_mod_cast h2 : abs x < ((2 : Nat) : α) ^ (e + 1))
      omega
    · exact (Int.zpow_le_iff_le_log (by norm_num : 1 < 2) hpos).mp (by exact_mod_cast h1)
  unfold ulpExponent
  rw [hlog]

/-- Rounding of a number with known leading bit `2 ^ e` and known nearest
multiple `k * 2 ^ Q` of the unit in the last place. -/
theorem roundBinary64_eq {α : Type} [LinearOrderedField α] [FloorRing α] (x : α)
    (e Q k : Int) (h1 : (2 : α) ^ e ≤ abs x) (h2 : abs x < (2 : α) ^ (e + 1))
    (hQ : max (e - 52) (-1074) = Q)
    (hk : abs (x / (2 : α) ^ Q - (k : α)) < 1 / 2
      ∨ (abs (x / (2 : α) ^ Q - (k : α)) = 1 / 2 ∧ k % 2 = 0)) :
    roundBinary64 x = (k : α) * (2 : α) ^ Q := by
  unfold roundBinary64
  rw [ulpExponent_eq x e h1 h2, hQ, roundEven_eq _ k hk]

theorem roundBinary64_zero {α : Type} [LinearOrderedField α] [FloorRing α] :
    roundBinary64 (0 : α) = 0 := by
  unfold roundBinary64
  rw [zero_div, roundEven_eq 0 0 (Or.inl (by norm_num))]
  simp

/-- A multiple `k * 2 ^ q` of a power of two with `|k| < 2 ^ 53` and `q` not
below the subnormal exponent is a binary64 value: rounding leaves it. -/
theorem roundBinary64_representable {α : Type} [LinearOrderedField α] [FloorRing α] (x : α)
    (k q : Int) (hx : x = (k : α) * (2 : α) ^ q) (hk : abs k < 2 ^ 53) (hq : -1074 ≤ q) :
    roundBinary64 x = x := by
  by_cases hk0 : k = 0
  · rw [hx, hk0, Int.cast_zero, zero_mul]
    exact roundBinary64_zero
  have h2pos : ∀ z : Int, (0 : α) < (2 : α) ^ z := fun z => zpow_pos (by norm_num) z
  have hxabs : abs x = ((abs k : Int) : α) * (2 : α) ^ q := by
    rw [hx, abs_mul, abs_of_pos (h2pos q), Int.cast_abs]
  have hpos : 0 < abs x := by
    rw [hxabs]
    exact mul_pos (by exact_mod_cast abs_pos.mpr hk0) (h2pos q)
  have hlt : abs x < (2 : α) ^ (q + 53) := by
    rw [hxabs, zpow_add₀ (by norm_num : (2 : α) ≠ 0), mul_comm]
    apply mul_lt_mul_of_pos_left _ (h2pos q)
    have h : ((abs k : Int) : α) < ((2 ^ 53 : Int) : α) := Int.cast_lt.mpr hk
    have h53 : ((2 ^ 53 : Int) : α) = (2 : α) ^ (53 : Int) := by norm_num
    rw [h53] at h
    exact h
  have hlog : Int.log 2 (abs x) < q + 53 :=
    (Int.lt_zpow_iff_log_lt (by norm_num : 1 < 2) hpos).mp (by exact_mod_cast hlt)
  have hQ : ulpExponent x ≤ q := by
    unfold ulpExponent
    omega
  obtain ⟨n, hn⟩ : ∃ n : Nat, q = ulpExponent x + (n : Int) :=
    ⟨(q - ulpExponent x).toNat, by omega⟩
  have hdiv : x / (2 : α) ^ ulpExponent x = ((k * 2 ^ n : Int) : α) := by
    rw [div_eq_iff (ne_of_gt (h2pos _))]
    conv_lhs => rw [hx, hn]
    rw [zpow_add₀ (by norm_num : (2 : α) ≠ 0), zpow_natCast]
    push_cast
    ring
  unfold roundBinary64
  rw [hdiv, roundEven_eq _ (k * 2 ^ n) (Or.inl (by simp)), ← hdiv]
  exact div_mul_cancel₀ _ (ne_of_gt (h2pos _))

/-- Rounding of a positive number that is not half-way between two binary64
values. -/
theorem roundBinary64_of_pos {α : Type} [LinearOrderedField α] [FloorRing α] (x : α)
    (e Q k : Int) (h1 : (2 : α) ^ e ≤ x) (h2 : x < (2 : α) ^ (e + 1))
    (hQ : max (e - 52) (-1074) = Q) (hlo : (k : α) - 1 / 2 < x / (2 : α) ^ Q)
    (hhi : x / (2 : α) ^ Q < (k : α) + 1 / 2) :
    roundBinary64 x = (k : α) * (2 : α) ^ Q := by
  have h0 : 0 < x := lt_of_lt_of_le (zpow_pos (by norm_num) e) h1
  apply roundBinary64_eq x e Q k (by rwa [abs_of_pos h0]) (by rwa [abs_of_pos h0]) hQ
  left
  rw [abs_lt]
  constructor <;> linarith

/-- Rounding of a positive number half-way between two binary64 values: the one
with the even significand. -/
theorem roundBinary64_of_tie {α : Type} [LinearOrderedField α] [FloorRing α] (x : α)
    (e Q k : Int) (h1 : (2 : α) ^ e ≤ x) (h2 : x < (2 : α) ^ (e + 1))
    (hQ : max (e - 52) (-1074) = Q)
    (htie : x / (2 : α) ^ Q = (k : α) - 1 / 2 ∨ x / (2 : α) ^ Q = (k : α) + 1 / 2)
    (heven : k % 2 = 0) :
    roundBinary64 x = (k : α) * (2 : α) ^ Q := by
  have h0 : 0 < x := lt_of_lt_of_le (zpow_pos (by norm_num) e) h1
  apply roundBinary64_eq x e Q k (by rwa [abs_of_pos h0]) (by rwa [abs_of_pos h0]) hQ
  right
  refine ⟨?_, heven⟩
  rcases htie with h | h
  · rw [h, sub_sub_cancel_left, abs_neg, abs_of_pos (by norm_num)]
  · rw [h, add_sub_cancel_left, abs_of_pos (by norm_num)]


theorem roundBinary64_intCast {α : Type} [LinearOrderedField α] [FloorRing α] (k : Int)
    (hk : abs k < 2 ^ 53) : roundBinary64 ((k : Int) : α) = (k : α) :=
  roundBinary64_representable _ k 0 (by simp) hk (by decide)

/-- C7, counterexample, in two parts.  Three rows whose final prices all equal
`50` with `numPaths = 2` give the mean `75`, not `50`.  And in binary64
arithmetic six rows whose final prices all equal `100.1`, with `numPaths = 6`,
give the mean `100.10000000000001`, one unit in the last place above `100.1`,
the variance `-3 * 2^-39` (about `-5.46e-12`) and therefore the standard
deviation NaN, not `0`. -/
theorem calculateStatistics_constant_fails :
    (∃ st, calculateStatistics Real.exp Real.sqrt [[100, 50], [100, 50], [100, 50]]
        { S0 := 100, mu := 0.05, sigma := 0.2, T := 1, numSteps := 1, numPaths := 2 }
        = .ok st ∧ st.mean = 75 ∧ st.mean ≠ 50) ∧
    (∃ st, calculateStatistics (OrNaN.lift (Binary64.lift Real.exp))
        (OrNaN.sqrt (Binary64.lift Real.sqrt))
        [[OrNaN.num 100.1], [OrNaN.num 100.1], [OrNaN.num 100.1], [OrNaN.num 100.1],
          [OrNaN.num 100.1], [OrNaN.num 100.1]]
        { S0 := OrNaN.num 100.1, mu := OrNaN.num 0.0, sigma := OrNaN.num 0.0,
          T := OrNaN.num 1.0, numSteps := 0, numPaths := 6 } = .ok st ∧
      (100.1 : Binary64 ℝ) = ⟨(7043911292184166 : ℝ) * 2 ^ (-46 : Int)⟩ ∧
      st.mean = OrNaN.num ⟨(7043911292184167 : ℝ) * 2 ^ (-46 : Int)⟩ ∧
      st.mean ≠ OrNaN.num 100.1 ∧
      st.variance = OrNaN.num ⟨(-3 : ℝ) * 2 ^ (-39 : Int)⟩ ∧
      st.stdDev = OrNaN.nan) := by
  have hz : (0.0 : Binary64 ℝ) = Binary64.mk (0 : ℝ) :=
    congrArg Binary64.mk
      ((congrArg roundBinary64 (by norm_num : (0.0 : ℝ) = 0)).trans roundBinary64_zero)
  have hn : ((6 : Int) : Binary64 ℝ) = Binary64.mk (6 : ℝ) :=
    congrArg Binary64.mk
      ((roundBinary64_intCast 6 (by decide)).trans (by norm_num))
  have hc :
      (100.1 : Binary64 ℝ)
      = ⟨(7043911292184166 : ℝ) * 2 ^ (-46 : Int)⟩ :=
    congrArg Binary64.mk
      ((roundBinary64_of_pos _ (6) (-46) 7043911292184166 (by norm_num) (by norm_num)
        (by decide) (by norm_num) (by norm_num)).trans (by norm_num))
  have hs1 :
      (Binary64.mk (0 : ℝ)
        + Binary64.mk ((7043911292184166 : ℝ) * 2 ^ (-46 : Int)) : Binary64 ℝ)
      = ⟨(7043911292184166 : ℝ) * 2 ^ (-46 : Int)⟩ :=
    congrArg Binary64.mk
      ((roundBinary64_of_pos _ (6) (-46) 7043911292184166 (by norm_num) (by norm_num)
        (by decide) (by norm_num) (by norm_num)).trans (by norm_num))
  have hs2 :
      (Binary64.mk ((7043911292184166 : ℝ) * 2 ^ (-46 : Int))
        + Binary64.mk ((7043911292184166 : ℝ) * 2 ^ (-46 : Int)) : Binary64 ℝ)
      = ⟨(7043911292184166 : ℝ) * 2 ^ (-45 : Int)⟩ :=
    congrArg Binary64.mk
      ((roundBinary64_of_pos _ (7) (-45) 7043911292184166 (by norm_num) (by norm_num)
        (by decide) (by norm_num) (by norm_num)).trans (by norm_num))
  have hs3 :
      (Binary64.mk ((7043911292184166 : ℝ) * 2 ^ (-45 : Int))
        + Binary64.mk ((7043911292184166 : ℝ) * 2 ^ (-46 : Int)) : Binary64 ℝ)
      = ⟨(5282933469138124 : ℝ) * 2 ^ (-44 : Int)⟩ :=
    congrArg Binary64.mk
      ((roundBinary64_of_tie _ (8) (-44) 5282933469138124 (by norm_num) (by norm_num)
        (by decide) (Or.inr (by norm_num)) (by decide)).trans (by norm_num))
  have hs4 :
      (Binary64.mk ((5282933469138124 : ℝ) * 2 ^ (-44 : Int))
        + Binary64.mk ((7043911292184166 : ℝ) * 2 ^ (-46 : Int)) : Binary64 ℝ)
      = ⟨(7043911292184166 : ℝ) * 2 ^ (-44 : Int)⟩ :=
    congrArg Binary64.mk
      ((roundBinary64_of_tie _ (8) (-44) 7043911292184166 (by norm_num) (by norm_num)
        (by decide) (Or.inl (by norm_num)) (by decide)).trans (by norm_num))
  have hs5 :
      (Binary64.mk ((7043911292184166 : ℝ) * 2 ^ (-44 : Int))
        + Binary64.mk ((7043911292184166 : ℝ) * 2 ^ (-46 : Int)) : Binary64 ℝ)
      = ⟨(8804889115230208 : ℝ) * 2 ^ (-44 : Int)⟩ :=
    congrArg Binary64.mk
      ((roundBinary64_of_tie _ (8) (-44) 8804889115230208 (by norm_num) (by norm_num)
        (by decide) (Or.inl (by norm_num)) (by decide)).trans (by norm_num))
  have hs6 :
      (Binary64.mk ((8804889115230208 : ℝ) * 2 ^ (-44 : Int))
        + Binary64.mk ((7043911292184166 : ℝ) * 2 ^ (-46 : Int)) : Binary64 ℝ)
      = ⟨(5282933469138125 : ℝ) * 2 ^ (-43 : Int)⟩ :=
    congrArg Binary64.mk
      ((roundBinary64_of_pos _ (9) (-43) 5282933469138125 (by norm_num) (by norm_num)
        (by decide) (by norm_num) (by norm_num)).trans (by norm_num))
  have hq :
      (Binary64.mk ((7043911292184166 : ℝ) * 2 ^ (-46 : Int))
        * Binary64.mk ((7043911292184166 : ℝ) * 2 ^ (-46 : Int)) : Binary64 ℝ)
      = ⟨(5508558752715898 : ℝ) * 2 ^ (-39 : Int)⟩ :=
    congrArg Binary64.mk
      ((roundBinary64_of_pos _ (13) (-39) 5508558752715898 (by norm_num) (by norm_num)
        (by decide) (by norm_num) (by norm_num)).trans (by norm_num))
  have ht1 :
      (Binary64.mk (0 : ℝ)
        + Binary64.mk ((5508558752715898 : ℝ) * 2 ^ (-39 : Int)) : Binary64 ℝ)
      = ⟨(5508558752715898 : ℝ) * 2 ^ (-39 : Int)⟩ :=
    congrArg Binary64.mk
      ((roundBinary64_of_pos _ (13) (-39) 5508558752715898 (by norm_num) (by norm_num)
        (by decide) (by norm_num) (by norm_num)).trans (by norm_num))
  have ht2 :
      (Binary64.mk ((5508558752715898 : ℝ) * 2 ^ (-39 : Int))
        + Binary64.mk ((5508558752715898 : ℝ) * 2 ^ (-39 : Int)) : Binary64 ℝ)
      = ⟨(5508558752715898 : ℝ) * 2 ^ (-38 : Int)⟩ :=
    congrArg Binary64.mk
      ((roundBinary64_of_pos _ (14) (-38) 5508558752715898 (by norm_num) (by norm_num)
        (by decide) (by norm_num) (by norm_num)).trans (by norm_num))
  have ht3 :
      (Binary64.mk ((5508558752715898 : ℝ) * 2 ^ (-38 : Int))
        + Binary64.mk ((5508558752715898 : ℝ) * 2 ^ (-39 : Int)) : Binary64 ℝ)
      = ⟨(8262838129073847 : ℝ) * 2 ^ (-38 : Int)⟩ :=
    congrArg Binary64.mk
      ((roundBinary64_of_pos _ (14) (-38) 8262838129073847 (by norm_num) (by norm_num)
        (by decide) (by norm_num) (by norm_num)).trans (by norm_num))
  have ht4 :
      (Binary64.mk ((8262838129073847 : ℝ) * 2 ^ (-38 : Int))
        + Binary64.mk ((5508558752715898 : ℝ) * 2 ^ (-39 : Int)) : Binary64 ℝ)
      = ⟨(5508558752715898 : ℝ) * 2 ^ (-37 : Int)⟩ :=
    congrArg Binary64.mk
      ((roundBinary64_of_pos _ (15) (-37) 5508558752715898 (by norm_num) (by norm_num)
        (by decide) (by norm_num) (by norm_num)).trans (by norm_num))
  have ht5 :
      (Binary64.mk ((5508558752715898 : ℝ) * 2 ^ (-37 : Int))
        + Binary64.mk ((5508558752715898 : ℝ) * 2 ^ (-39 : Int)) : Binary64 ℝ)
      = ⟨(6885698440894872 : ℝ) * 2 ^ (-37 : Int)⟩ :=
    congrArg Binary64.mk
      ((roundBinary64_of_tie _ (15) (-37) 6885698440894872 (by norm_num) (by norm_num)
        (by decide) (Or.inr (by norm_num)) (by decide)).trans (by norm_num))
  have ht6 :
      (Binary64.mk ((6885698440894872 : ℝ) * 2 ^ (-37 : Int))
        + Binary64.mk ((5508558752715898 : ℝ) * 2 ^ (-39 : Int)) : Binary64 ℝ)
      = ⟨(8262838129073846 : ℝ) * 2 ^ (-37 : Int)⟩ :=
    congrArg Binary64.mk
      ((roundBinary64_of_tie _ (15) (-37) 8262838129073846 (by norm_num) (by norm_num)
        (by decide) (Or.inr (by norm_num)) (by decide)).trans (by norm_num))
  have hm :
      (Binary64.mk ((5282933469138125 : ℝ) * 2 ^ (-43 : Int))
        / Binary64.mk (6 : ℝ) : Binary64 ℝ)
      = ⟨(7043911292184167 : ℝ) * 2 ^ (-46 : Int)⟩ :=
    congrArg Binary64.mk
      ((roundBinary64_of_pos _ (6) (-46) 7043911292184167 (by norm_num) (by norm_num)
        (by decide) (by norm_num) (by norm_num)).trans (by norm_num))
  have ha :
      (Binary64.mk ((8262838129073846 : ℝ) * 2 ^ (-37 : Int))
        / Binary64.mk (6 : ℝ) : Binary64 ℝ)
      = ⟨(5508558752715897 : ℝ) * 2 ^ (-39 : Int)⟩ :=
    congrArg Binary64.mk
      ((roundBinary64_of_pos _ (13) (-39) 5508558752715897 (by norm_num) (by norm_num)
        (by decide) (by norm_num) (by norm_num)).trans (by norm_num))
  have hb :
      (Binary64.mk ((7043911292184167 : ℝ) * 2 ^ (-46 : Int))
        * Binary64.mk ((7043911292184167 : ℝ) * 2 ^ (-46 : Int)) : Binary64 ℝ)
      = ⟨(5508558752715900 : ℝ) * 2 ^ (-39 : Int)⟩ :=
    congrArg Binary64.mk
      ((roundBinary64_of_pos _ (13) (-39) 5508558752715900 (by norm_num) (by norm_num)
        (by decide) (by norm_num) (by norm_num)).trans (by norm_num))
  have hv : (Binary64.mk ((5508558752715897 : ℝ) * 2 ^ (-39 : Int))
        - Binary64.mk ((5508558752715900 : ℝ) * 2 ^ (-39 : Int)) : Binary64 ℝ)
      = ⟨(-3 : ℝ) * 2 ^ (-39 : Int)⟩ :=
    congrArg Binary64.mk
      ((roundBinary64_representable _ (-3) (-39) (by norm_num) (by decide)
        (by decide)).trans (by norm_num))
  refine ⟨⟨_, calculateStatistics_eq Real.exp Real.sqrt _ _ 50 [50, 50] rfl, by norm_num,
    by norm_num⟩, ?_⟩
  refine ⟨_, calculateStatistics_of_finalPrices _ _ _ _ (OrNaN.num 100.1)
    [OrNaN.num 100.1, OrNaN.num 100.1, OrNaN.num 100.1, OrNaN.num 100.1, OrNaN.num 100.1]
    rfl, hc, ?_, ?_, ?_, ?_⟩
  · simp only [List.foldl, accumulate, OrNaN.zero_lit, OrNaN.num_add, OrNaN.num_mul, OrNaN.num_div,
      OrNaN.num_sub, OrNaN.intCast_eq, hz, hc, hs1, hs2, hs3, hs4, hs5, hs6, hq, ht1, ht2,
      ht3, ht4, ht5, ht6, hn, hm, ha, hb, hv]
  · simp only [List.foldl, accumulate, OrNaN.zero_lit, OrNaN.num_add, OrNaN.num_mul, OrNaN.num_div,
      OrNaN.num_sub, OrNaN.intCast_eq, hz, hc, hs1, hs2, hs3, hs4, hs5, hs6, hq, ht1, ht2,
      ht3, ht4, ht5, ht6, hn, hm, ha, hb, hv, ne_eq, OrNaN.num.injEq, Binary64.mk.injEq]
    norm_num
  · simp only [List.foldl, accumulate, OrNaN.zero_lit, OrNaN.num_add, OrNaN.num_mul, OrNaN.num_div,
      OrNaN.num_sub, OrNaN.intCast_eq, hz, hc, hs1, hs2, hs3, hs4, hs5, hs6, hq, ht1, ht2,
      ht3, ht4, ht5, ht6, hn, hm, ha, hb, hv]
  · simp only [List.foldl, accumulate, OrNaN.zero_lit, OrNaN.num_add, OrNaN.num_mul, OrNaN.num_div,
      OrNaN.num_sub, OrNaN.intCast_eq, hz, hc, hs1, hs2, hs3, hs4, hs5, hs6, hq, ht1, ht2,
      ht3, ht4, ht5, ht6, hn, hm, ha, hb, hv]
    rw [OrNaN.sqrt, if_pos]
    show (-3 : ℝ) * 2 ^ (-39 : Int) < 0
    norm_num

/-- C7, amended, in two parts.  For a non-empty matrix whose final prices all
equal one constant `c`: in every arithmetic in which `c < c` is false,
`calculateStatistics` yields `min = c` and `max = c`; and over exact real
arithmetic, with `numPaths` equal to the number of rows, it yields `mean = c`,
`stddev = 0`, `min = c` and `max = c`. -/
theorem calculateStatistics_constant :
    (∀ (α : Type) [Add α] [Sub α] [Mul α] [Div α] [OfScientific α] [IntCast α] [LT α]
        [DecidableRel (fun a b : α => a < b)] (exp sqrt : α → α) (M : List (List α))
        (params : SimulationParams α) (c : α), M ≠ [] →
        (∀ row ∈ M, row.getLast? = some c) → ¬ c < c →
        ∃ st, calculateStatistics exp sqrt M params = .ok st ∧ st.min = c ∧ st.max = c) ∧
    (∀ (exp : ℝ → ℝ) (M : List (List ℝ)) (params : SimulationParams ℝ) (c : ℝ), M ≠ [] →
        (∀ row ∈ M, row.getLast? = some c) → params.numPaths = (M.length : Int) →
        ∃ st, calculateStatistics exp Real.sqrt M params = .ok st ∧
          st.mean = c ∧ st.stdDev = 0 ∧ st.min = c ∧ st.max = c) := by
  constructor
  · intro α _ _ _ _ _ _ _ _ exp sqrt M params c hne hall hirr
    have hrows : ∀ row ∈ M, row ≠ [] := by
      intro row hrow h
      have := hall row hrow
      rw [h] at this
      cases this
    obtain ⟨fp, hfp, hfor⟩ := collectFinalPrices_spec M hrows
    have hrep := finalPrices_const hfor hall
    have hmem : ∀ q ∈ fp, q = c := by
      intro q hq
      rw [hrep] at hq
      exact (List.mem_replicate.mp hq).2
    have hlen : M.length = fp.length := hfor.length_eq
    match fp, hfp, hmem, hlen with
    | p :: ps, hfp, hmem, _ =>
      have hp : p = c := hmem p (List.mem_cons_self _ _)
      have hmm := foldl_accumulate_const (p :: ps)
        { sum := (0.0 : α), sumSq := (0.0 : α), min := p, max := p } c hirr hmem hp hp
      exact ⟨_, calculateStatistics_of_finalPrices exp sqrt M params p ps hfp, hmm.1, hmm.2⟩
    | [], _, _, hlen =>
      exact absurd (List.length_eq_zero.mp hlen) hne
  · intro exp M params c hne hall hN
    have hrows : ∀ row ∈ M, row ≠ [] := by
      intro row hrow h
      have := hall row hrow
      rw [h] at this
      cases this
    obtain ⟨fp, hfp, hfor⟩ := collectFinalPrices_spec M hrows
    have hrep := finalPrices_const hfor hall
    have hcast : ((params.numPaths : Int) : ℝ) = (M.length : ℝ) := by rw [hN]; norm_cast
    have hpos : (M.length : ℝ) ≠ 0 := by
      have : M.length ≠ 0 := fun h => hne (List.length_eq_zero.mp h)
      exact_mod_cast this
    have hmem : ∀ q ∈ fp, q = c := by
      intro q hq
      rw [hrep] at hq
      exact (List.mem_replicate.mp hq).2
    have hsum : fp.sum = (M.length : ℝ) * c := by
      rw [hrep, List.sum_replicate, nsmul_eq_mul]
    have hsq : (fp.map (fun q => q ^ 2)).sum = (M.length : ℝ) * c ^ 2 := by
      rw [hrep, List.map_replicate, List.sum_replicate, nsmul_eq_mul]
    have hlen : M.length = fp.length := hfor.length_eq
    match fp, hfp, hmem, hsum, hsq, hlen with
    | p :: ps, hfp, hmem, hsum, hsq, _ =>
      have hp : p = c := hmem p (List.mem_cons_self _ _)
      have hmean : (p :: ps).sum / ((params.numPaths : Int) : ℝ) = c := by
        rw [hsum, hcast]
        field_simp
      have hvar : ((p :: ps).map (fun q => q ^ 2)).sum / ((params.numPaths : Int) : ℝ)
          - ((p :: ps).sum / ((params.numPaths : Int) : ℝ)) ^ 2 = 0 := by
        rw [hmean, hsq, hcast]
        field_simp
      have hmm := foldl_accumulate_const (p :: ps)
        { sum := (0.0 : ℝ), sumSq := (0.0 : ℝ), min := p, max := p } c (lt_irrefl c) hmem hp hp
      refine ⟨_, calculateStatistics_eq exp Real.sqrt M params p ps hfp, hmean, ?_, hmm.1,
        hmm.2⟩
      show Real.sqrt _ = 0
      rw [hvar, Real.sqrt_zero]
    | [], _, _, _, _, hlen =>
      exact absurd (List.length_eq_zero.mp hlen) hne

theorem calculateStatistics_constant_witness :
    (¬ ((OrNaN.num 100.1 : OrNaN (Binary64 ℝ)) < OrNaN.num 100.1) ∧
      ∃ st, calculateStatistics (OrNaN.lift (Binary64.lift Real.exp))
          (OrNaN.sqrt (Binary64.lift Real.sqrt))
          [[OrNaN.num 100.1], [OrNaN.num 100.1], [OrNaN.num 100.1], [OrNaN.num 100.1],
            [OrNaN.num 100.1], [OrNaN.num 100.1]]
          { S0 := OrNaN.num 100.1, mu := OrNaN.num 0.0, sigma := OrNaN.num 0.0,
            T := OrNaN.num 1.0, numSteps := 0, numPaths := 6 } = .ok st ∧
        st.min = OrNaN.num 100.1 ∧ st.max = OrNaN.num 100.1) ∧
    (([[100, 50], [100, 50], [100, 50]] : List (List ℝ)) ≠ [] ∧
      (∀ row ∈ ([[100, 50], [100, 50], [100, 50]] : List (List ℝ)),
        row.getLast? = some 50) ∧
      ∃ st, calculateStatistics Real.exp Real.sqrt [[100, 50], [100, 50], [100, 50]]
          { S0 := 100, mu := 0.05, sigma := 0.2, T := 1, numSteps := 1, numPaths := 3 }
          = .ok st ∧ st.mean = 50 ∧ st.stdDev = 0 ∧ st.min = 50 ∧ st.max = 50) :=
  ⟨⟨fun h => lt_irrefl ((100.1 : Binary64 ℝ).val) h,
    calculateStatistics_constant.1 (OrNaN (Binary64 ℝ)) (OrNaN.lift (Binary64.lift Real.exp))
      (OrNaN.sqrt (Binary64.lift Real.sqrt))
      [[OrNaN.num 100.1], [OrNaN.num 100.1], [OrNaN.num 100.1], [OrNaN.num 100.1],
        [OrNaN.num 100.1], [OrNaN.num 100.1]]
      { S0 := OrNaN.num 100.1, mu := OrNaN.num 0.0, sigma := OrNaN.num 0.0,
        T := OrNaN.num 1.0, numSteps := 0, numPaths := 6 } (OrNaN.num 100.1)
      (by simp) (by simp) (fun h => lt_irrefl ((100.1 : Binary64 ℝ).val) h)⟩,
   ⟨by simp, by simp,
    calculateStatistics_constant.2 Real.exp [[100, 50], [100, 50], [100, 50]]
      { S0 := 100, mu := 0.05, sigma := 0.2, T := 1, numSteps := 1, numPaths := 3 } 50
      (by simp) (by simp) rfl⟩⟩

end MonteCarlo
